import Mathlib

/-!
Verification development for the aika parallel discrete-event simulation engine.

The definitions below are a shallow embedding of the engine's core data model
and operations:
  the scheduling data model from src/objects.rs and src/messages.rs
  (Action, Event, Msg, AntiMsg, Transfer, Mail),
  the hierarchical timing wheel from src/clock.rs (Clock: insert, tick,
  increment, rotate),
  the parallel worker from src/mt/hybrid/planet.rs (Planet: schedule,
  rollback, annihilate, and the gating of the outer run loop),
  and the block-consensus coordinator from src/mt/hybrid/galaxy.rs
  (Galaxy: poll_blocks, update_consensus, commit_block).

Machine integers (u64 / usize) are modelled as Nat; where the source can
underflow or overflow a machine integer, the wrap-around is made explicit
(mod 2 ^ 64 or 2 ^ 32), matching release-build two's-complement semantics;
such places are noted, since debug builds would panic there instead.
Floating point time parameters (timestep, terminal) are modelled as
rationals; no claim in scope depends on rounding behaviour of f64.
-/

namespace Aika

/-- Word size of u64 / usize (the engine targets 64-bit platforms). -/
def U64 : ℕ := 2 ^ 64

/-- Wrapping u64 subtraction, as released Rust computes a - b on u64 when
b may exceed a (debug builds panic instead; both operands below 2 ^ 64). -/
def u64Sub (a b : ℕ) : ℕ := if b ≤ a then a - b else U64 - (b - a)

/-- A scheduling action an agent can take (src/objects.rs, enum Action). -/
inductive Action where
  | Timeout (delta : ℕ)
  | Schedule (t : ℕ)
  | Trigger (time : ℕ) (idx : ℕ)
  | Wait
  | Break
deriving DecidableEq, Repr

/-- An event that can be scheduled in a simulation (src/objects.rs, struct
Event). The Rust field yield_ is kept under the same name. -/
structure Event where
  time : ℕ
  commit_time : ℕ
  agent : ℕ
  yield_ : Action
deriving DecidableEq, Repr

namespace Event

/-- Event::new(commit_time, time, agent, yield_). -/
def new (commit_time time agent : ℕ) (yield_ : Action) : Event :=
  { time := time, commit_time := commit_time, agent := agent, yield_ := yield_ }

end Event

/-- A direct message between two entities (src/messages.rs and
src/objects.rs, struct Msg). The Rust field from is a Lean keyword and is
embedded as fromId; to = none means broadcast. -/
structure Msg (T : Type) where
  fromId : ℕ
  toId : Option ℕ
  sent : ℕ
  recv : ℕ
  data : T
deriving DecidableEq, Repr

namespace Msg

/-- Msg::new(data, sent, recv, from, to). -/
def new {T : Type} (data : T) (sent recv fromId : ℕ) (toId : Option ℕ) : Msg T :=
  { fromId := fromId, toId := toId, sent := sent, recv := recv, data := data }

/-- Scheduleable::time for Msg returns recv. -/
def time {T : Type} (m : Msg T) : ℕ := m.recv

/-- Scheduleable::commit_time for Msg returns sent. -/
def commit_time {T : Type} (m : Msg T) : ℕ := m.sent

/-- The PartialEq impl for Msg compares from, to, sent and recv (not data). -/
def beq {T : Type} (a b : Msg T) : Bool :=
  a.fromId == b.fromId && a.toId == b.toId && a.sent == b.sent && a.recv == b.recv

end Msg

/-- An anti-message mirroring a Msg by identity without payload
(src/messages.rs lines 83-105, struct AntiMsg). -/
structure AntiMsg where
  sent : ℕ
  received : ℕ
  fromId : ℕ
  toId : Option ℕ
deriving DecidableEq, Repr

namespace AntiMsg

/-- AntiMsg::new(sent, received, from, to). -/
def new (sent received fromId : ℕ) (toId : Option ℕ) : AntiMsg :=
  { sent := sent, received := received, fromId := fromId, toId := toId }

/-- AntiMsg::annihilate (src/messages.rs lines 102-105): an AntiMsg and a
Msg pair up exactly when sent, received/recv, from and to all agree. -/
def annihilate {T : Type} (a : AntiMsg) (other : Msg T) : Bool :=
  a.sent == other.sent && a.received == other.recv
    && a.fromId == other.fromId && a.toId == other.toId

/-- The PartialEq impl for AntiMsg (src/messages.rs lines 107-111):
equality compares only the two timestamps, never from or to. -/
def beq (a b : AntiMsg) : Bool :=
  a.sent == b.sent && a.received == b.received

/-- The Ord impl for AntiMsg (src/messages.rs lines 121-125): comparison
is by the received timestamp alone. -/
def cmp (a b : AntiMsg) : Ordering :=
  compare a.received b.received

/-- Scheduleable::time for AntiMsg returns received. -/
def time (a : AntiMsg) : ℕ := a.received

end AntiMsg

/-- An object transferable between Planet threads (src/objects.rs, enum
Transfer). -/
inductive Transfer (T : Type) where
  | Msg (m : Msg T)
  | AntiMsg (a : AntiMsg)
deriving DecidableEq, Repr

namespace Transfer

/-- Scheduleable::time for Transfer delegates to the wrapped value. -/
def time {T : Type} : Transfer T → ℕ
  | .Msg m => m.time
  | .AntiMsg a => a.time

end Transfer

/-- Inter-planetary mail envelope (src/objects.rs, struct Mail). -/
structure Mail (T : Type) where
  transfer : Transfer T
  to_world : Option ℕ
  from_world : ℕ
deriving DecidableEq, Repr

namespace Mail

/-- Mail::open_letter consumes the envelope and returns the transfer. -/
def open_letter {T : Type} (m : Mail T) : Transfer T := m.transfer

end Mail

/-- Simulation error enumeration; only the variants the claims in scope
exercise are embedded (src/error.rs and the worlds error enum). -/
inductive SimError where
  | TimeTravel
  | PastTerminal
  | NoEvents
  | NoClock
  | ClockSyncIssue
  | MismatchedDeliveryAddress
  | DistantBlocks (n : ℕ)
  | MismatchBlockTimeStamps (counter start stop : ℕ)
deriving DecidableEq, Repr

section ClockModel

variable {T : Type}

/-- Interface of the Scheduleable trait plus the pieces of Ord/Eq the wheel
uses, so Clock can be instantiated at Event and at Msg like the Rust
const-generic Clock. -/
class Scheduleable (T : Type) where
  time : T → ℕ
  commit_time : T → ℕ

instance : Scheduleable Event := ⟨Event.time, Event.commit_time⟩

instance {T : Type} : Scheduleable (Msg T) := ⟨Msg.time, Msg.commit_time⟩

/-- Hierarchical timing wheel state (src/clock.rs, struct Clock). The
const generics SLOTS and HEIGHT are passed to each operation; wheels is
HEIGHT rows of SLOTS buckets. Only the integer step of the Time struct is
carried: the mirrored f64 field time.time is step * timestep and no
embedded operation reads it. -/
structure Clock (T : Type) where
  wheels : List (List (List T))
  currentIdxs : List ℕ
  step : ℕ
deriving DecidableEq, Repr

namespace Clock

/-- A fresh clock as Clock::new builds it: zeroed cursors, empty buckets,
step 0. -/
def new (T : Type) (SLOTS HEIGHT : ℕ) : Clock T :=
  { wheels := List.replicate HEIGHT (List.replicate SLOTS ([] : List T))
    currentIdxs := List.replicate HEIGHT 0
    step := 0 }

/-- Start index of wheel level k: (SLOTS ^ (k+1) - SLOTS) / (SLOTS - 1),
exactly the startidx expression in Clock::insert. -/
def startIdx (SLOTS k : ℕ) : ℕ := (SLOTS ^ (1 + k) - SLOTS) / (SLOTS - 1)

/-- End index of wheel level k: (SLOTS ^ (k+2) - SLOTS) / (SLOTS - 1) - 1,
exactly the endidx expression in Clock::insert. -/
def endIdx (SLOTS k : ℕ) : ℕ := (SLOTS ^ (2 + k) - SLOTS) / (SLOTS - 1) - 1

/-- Bucket at level k, slot j. -/
def bucket (c : Clock T) (k j : ℕ) : List T :=
  (c.wheels.getD k []).getD j []

/-- Replace the bucket at level k, slot j. -/
def setBucket (c : Clock T) (k j : ℕ) (b : List T) : Clock T :=
  { c with wheels := c.wheels.set k ((c.wheels.getD k []).set j b) }

/-- Cursor of level k. -/
def cursor (c : Clock T) (k : ℕ) : ℕ := c.currentIdxs.getD k 0

/-- The body of the for k in 0..HEIGHT loop of Clock::insert, recursing
over the remaining levels. Returns the updated clock, or the event back
(Err(event) in Rust) when it is beyond the horizon or no level accepts it. -/
def insertLoop [Scheduleable T] (SLOTS HEIGHT : ℕ) (deltaidx : ℕ) (e : T)
    (c : Clock T) : List ℕ → Clock T × Option T
  | [] => (c, some e)
  | k :: rest =>
    if deltaidx ≥ startIdx SLOTS k then
      if deltaidx ≥ (SLOTS ^ (1 + HEIGHT) - SLOTS) / (SLOTS - 1) then
        (c, some e)
      else if deltaidx > endIdx SLOTS k then
        insertLoop SLOTS HEIGHT deltaidx e c rest
      else
        let offset := ((deltaidx - startIdx SLOTS k) / SLOTS ^ k + c.cursor k) % SLOTS
        (c.setBucket k offset (c.bucket k offset ++ [e]), none)
    else
      insertLoop SLOTS HEIGHT deltaidx e c rest

/-- Clock::insert (src/clock.rs lines 47-68). The Rust source computes
(time - self.time.step) as usize with an unguarded u64 subtraction; the
wrap-around of release builds is embedded explicitly via u64Sub (a debug
build panics when time < step). Returns (clock, none) on Ok and
(clock, some event) for Err(event). -/
def insert [Scheduleable T] (SLOTS HEIGHT : ℕ) (c : Clock T) (e : T) :
    Clock T × Option T :=
  let deltaidx := u64Sub (Scheduleable.time e) c.step
  insertLoop SLOTS HEIGHT deltaidx e c (List.range HEIGHT)

/-- Clock::tick (src/clock.rs lines 70-81): take the bucket under the
level-0 cursor; TimeTravel if its first item is stamped in the past,
NoEvents if empty. The bucket is emptied in every case (mem::take). -/
def tick [Scheduleable T] (c : Clock T) : Except SimError (List T) × Clock T :=
  let events := c.bucket 0 (c.cursor 0)
  let c2 := c.setBucket 0 (c.cursor 0) []
  match events with
  | [] => (.error .NoEvents, c2)
  | e :: _ =>
    if Scheduleable.time e < c.step then (.error .TimeTravel, c2)
    else (.ok events, c2)

/-- One iteration of the for k in 1..HEIGHT loop of Clock::rotate, acting
on level k. The HEIGHT == k branch drains up to SLOTS ^ (HEIGHT - 1)
overflow items; it is embedded faithfully (popLoop) even though the loop
bound keeps k < HEIGHT, so the branch can never run. -/
def rotateLevel [Scheduleable T] [DecidableEq T] (SLOTS HEIGHT : ℕ) :
    Clock T × List T → ℕ → Clock T × List T
  | (c, overflow), k =>
    if c.step % SLOTS ^ k == 0 then
      if HEIGHT == k then
        popLoop SLOTS HEIGHT (SLOTS ^ (HEIGHT - 1)) (c, overflow)
      else
        let higher := c.bucket k (c.cursor k)
        let c2 := c.setBucket k (c.cursor k) []
        let c3 := { c2 with currentIdxs := c2.currentIdxs.set k ((c2.cursor k + 1) % SLOTS) }
        higher.foldl
          (fun (acc : Clock T × List T) e =>
            match insert SLOTS HEIGHT acc.1 e with
            | (c4, none) => (c4, acc.2)
            | (c4, some e2) => (c4, acc.2 ++ [e2]))
          (c3, overflow)
    else (c, overflow)
where
  /-- The overflow drain of the top-level branch: pop_first n times from
  the overflow set, re-inserting each popped item. The BTreeSet holds
  Reverse-wrapped items, so pop_first removes the maximum by item order;
  the embedding pops the maximum by timestamp from the overflow list.
  This code is dead (see the rotate theorems); it is embedded so that its
  unreachability is a statement about the model. -/
  popLoop (SLOTS HEIGHT : ℕ) : ℕ → Clock T × List T → Clock T × List T
    | 0, acc => acc
    | n + 1, (c, overflow) =>
      match overflow.argmax (fun e => Scheduleable.time e) with
      | none => popLoop SLOTS HEIGHT n (c, overflow)
      | some e =>
        let rest := overflow.erase e
        match insert SLOTS HEIGHT c e with
        | (c2, none) => popLoop SLOTS HEIGHT n (c2, rest)
        | (c2, some e2) => popLoop SLOTS HEIGHT n (c2, rest ++ [e2])

/-- Clock::rotate (src/clock.rs lines 92-112): for each k in 1..HEIGHT
whose period divides the step, sweep the bucket under that cursor down a
level. The overflow collection is a list here; the source BTreeSet
deduplicates items that compare equal, which no claim in scope exercises. -/
def rotate [Scheduleable T] [DecidableEq T] (SLOTS HEIGHT : ℕ) (c : Clock T)
    (overflow : List T) : Clock T × List T :=
  (List.range HEIGHT).drop 1 |>.foldl (rotateLevel SLOTS HEIGHT) (c, overflow)

/-- Clock::increment (src/clock.rs lines 83-90): advance the level-0
cursor, bump the step, rotate on wrap-around. -/
def increment [Scheduleable T] [DecidableEq T] (SLOTS HEIGHT : ℕ) (c : Clock T)
    (overflow : List T) : Clock T × List T :=
  let c2 := { c with
    currentIdxs := c.currentIdxs.set 0 ((c.cursor 0 + 1) % SLOTS)
    step := c.step + 1 }
  if c2.cursor 0 == 0 then rotate SLOTS HEIGHT c2 overflow else (c2, overflow)

/-- All items currently held in the wheels, flattened bucket by bucket. -/
def items (c : Clock T) : List T :=
  (c.wheels.map fun row => row.flatten).flatten

/-- Well-formed dimensions: HEIGHT rows of SLOTS buckets and HEIGHT
cursors, as Clock::new allocates them. -/
def Dims (SLOTS HEIGHT : ℕ) (c : Clock T) : Prop :=
  c.wheels.length = HEIGHT ∧ (∀ row ∈ c.wheels, row.length = SLOTS) ∧
    c.currentIdxs.length = HEIGHT

instance (SLOTS HEIGHT : ℕ) (c : Clock T) : Decidable (Dims SLOTS HEIGHT c) := by
  unfold Dims; infer_instance

/-- One run-loop cycle over the event system as the World and Planet run
loops drive it: tick (processing the due bucket), then increment. The
items the tick yields are collected; a tick error yields nothing. -/
def tickIncrementCycle [Scheduleable T] [DecidableEq T] (SLOTS HEIGHT : ℕ)
    (st : Clock T × List T) : List T × (Clock T × List T) :=
  let t := tick st.1
  let inc := increment SLOTS HEIGHT t.2 st.2
  (match t.1 with | .ok es => es | .error _ => [], inc)

/-- Repeated tick/increment cycles, collecting every item tick yields. -/
def tickIncrementCycles [Scheduleable T] [DecidableEq T] (SLOTS HEIGHT : ℕ) :
    ℕ → Clock T × List T → List T × (Clock T × List T)
  | 0, st => ([], st)
  | n + 1, st =>
    let first := tickIncrementCycle SLOTS HEIGHT st
    let rest := tickIncrementCycles SLOTS HEIGHT n first.2
    (first.1 ++ rest.1, rest.2)

end Clock

end ClockModel

section PlanetModel

variable {T σ : Type}

/-- Modelled from the spec: the arena-backed journal of the external
mesocarp crate (mesocarp::logging::journal::Journal), used by Planet for
world state, agent states and the anti-message log. The spec describes it
as an append-only log of (value, step) pairs whose rollback(step) discards
all entries with step > target; rollback_return additionally hands the
discarded entries back. Only this contract is relied on. -/
structure Journal (α : Type) where
  entries : List (α × ℕ)
deriving DecidableEq, Repr

namespace Journal

/-- Journal::write appends an entry tagged with the commit step. -/
def write {α : Type} (j : Journal α) (v : α) (step : ℕ) : Journal α :=
  { entries := j.entries ++ [(v, step)] }

/-- Modelled from the spec: Journal::rollback(target) discards all entries
with step > target. -/
def rollback {α : Type} (j : Journal α) (target : ℕ) : Journal α :=
  { entries := j.entries.filter (fun e => decide (e.2 ≤ target)) }

/-- Modelled from the spec: Journal::rollback_return(target) discards the
entries with step > target and returns them (in log order). -/
def rollback_return {α : Type} (j : Journal α) (target : ℕ) :
    Journal α × List (α × ℕ) :=
  (j.rollback target, j.entries.filter (fun e => decide (target < e.2)))

end Journal

/-- Modelled from the spec: rollback of the external mesocarp timing wheel
(section 4.1 of the spec): set all cursors to 0 and the step to the target
time, walk every bucket and the overflow, discard locally produced items
(commit_time after the target) when the wheel holds events, keep received
messages, and re-insert every survivor, routing out-of-horizon items to
the overflow. The dropLocal flag is true for the event wheel and false for
the message wheel. -/
def clockRollbackSpec [Scheduleable T] (SLOTS HEIGHT : ℕ) (dropLocal : Bool)
    (c : Clock T) (overflow : List T) (t : ℕ) : Clock T × List T :=
  let all := c.items ++ overflow
  let survivors :=
    if dropLocal then all.filter (fun x => decide (Scheduleable.commit_time x ≤ t)) else all
  let base : Clock T :=
    { wheels := c.wheels.map (fun row => row.map (fun _ => []))
      currentIdxs := c.currentIdxs.map (fun _ => 0)
      step := t }
  survivors.foldl
    (fun (acc : Clock T × List T) e =>
      match Clock.insert SLOTS HEIGHT acc.1 e with
      | (c2, none) => (c2, acc.2)
      | (c2, some e2) => (c2, acc.2 ++ [e2]))
    (base, [])

/-- The per-iteration behaviour of the Planet outer run loop
(src/mt/hybrid/planet.rs lines 421-449), as observed by the local virtual
time: an iteration either sleeps (checkpoint gate), applies a rollback
triggered while polling the inter-world inbox (rollback to r succeeds only
when r is at or below the current time), or reads the published GVT and
runs one step - which advances the LVT by one - unless the throttle gate
gvt + throttle_horizon < now blocks it. -/
inductive RunObs where
  | sleep
  | roll (r : ℕ)
  | tryStep (gvt : ℕ)
deriving DecidableEq, Repr

/-- Effect of one outer-loop iteration on the local virtual time. The
throttle comparison is exactly the source guard
if gvt + self.throttle_horizon < self.now() then sleep else step. -/
def runIter (H : ℕ) (now : ℕ) : RunObs → ℕ
  | .sleep => now
  | .roll r => if r ≤ now then r else now
  | .tryStep gvt => if gvt + H < now then now else now + 1

/-- Local virtual time after a sequence of outer-loop iterations. -/
def runTrace (H : ℕ) (obs : List RunObs) (now0 : ℕ) : ℕ :=
  obs.foldl (runIter H) now0

/-- The optimistic worker state (src/mt/hybrid/planet.rs, struct Planet),
restricted to the fields its embedded operations touch. The messenger
endpoint is represented by the list of mail sent through it (outbox);
agents and the shared atomics live outside the rollback/schedule logic.
The Planet mirrors its LVT into an atomic after each change; here lvt is
that value. -/
structure Planet (T σ : Type) where
  worldState : Journal σ
  agentStates : List (Journal σ)
  antiMsgs : Journal (Mail T)
  evtClock : Clock Event
  evtOverflow : List Event
  msgClock : Clock (Msg T)
  msgOverflow : List (Msg T)
  lvt : ℕ
  worldId : ℕ
  outbox : List (Mail T)
  timestep : ℚ
  terminal : ℚ
  throttle_horizon : ℕ
deriving Repr

namespace Planet

/-- Planet::now() returns the event wheel time. -/
def now (p : Planet T σ) : ℕ := p.evtClock.step

/-- LocalEventSystem::insert (src/objects.rs lines 394-400): place in the
wheel, push to the overflow heap if the wheel hands it back. -/
def commit (SLOTS HEIGHT : ℕ) (p : Planet T σ) (e : Event) : Planet T σ :=
  match Clock.insert SLOTS HEIGHT p.evtClock e with
  | (c2, none) => { p with evtClock := c2 }
  | (c2, some e2) => { p with evtClock := c2, evtOverflow := p.evtOverflow ++ [e2] }

/-- Planet::commit_mail (src/mt/hybrid/planet.rs lines 169-176). -/
def commit_mail [DecidableEq T] (SLOTS HEIGHT : ℕ) (p : Planet T σ) (m : Msg T) :
    Planet T σ :=
  match Clock.insert SLOTS HEIGHT p.msgClock m with
  | (c2, none) => { p with msgClock := c2 }
  | (c2, some m2) => { p with msgOverflow := p.msgOverflow ++ [m2], msgClock := c2 }

/-- Planet::schedule (src/mt/hybrid/planet.rs lines 179-188); the
single-threaded World::schedule (src/st/mod.rs lines 103-112) is the same
code over the same event system. The pair mirrors the Rust
(&mut self) -> Result shape: both error paths return before anything is
touched. -/
def schedule (SLOTS HEIGHT : ℕ) (p : Planet T σ) (time agent : ℕ) :
    Except SimError Unit × Planet T σ :=
  if time < p.now then (.error .TimeTravel, p)
  else if (time : ℚ) * p.timestep > p.terminal then (.error .PastTerminal, p)
  else (.ok (), p.commit SLOTS HEIGHT (Event.new p.now time agent .Wait))

/-- The bucket scan of Planet::annihilate: pop every message off the
bucket, dropping each one the anti-message matches and pushing the rest
onto a fresh list - so the survivors end up in reverse order. -/
def annihilateScan {T : Type} (anti : AntiMsg) (msgs : List (Msg T)) : List (Msg T) :=
  msgs.reverse.filter (fun m => !anti.annihilate m)

/-- The level-search loop of Planet::annihilate (src/mt/hybrid/planet.rs
lines 260-285): the same geometry as Clock::insert locates the bucket that
would hold the anti-message timestamp; returns none when the timestamp is
beyond the wheel horizon (the Rust break) or no level accepts it, in which
case the caller scans the overflow heap. -/
def annihilateLoop {T : Type} (SLOTS HEIGHT diff : ℕ) (anti : AntiMsg)
    (c : Clock (Msg T)) : List ℕ → Option (Clock (Msg T))
  | [] => none
  | k :: rest =>
    if diff ≥ Clock.startIdx SLOTS k then
      if diff ≥ (SLOTS ^ (1 + HEIGHT) - SLOTS) / (SLOTS - 1) then none
      else if diff > Clock.endIdx SLOTS k then annihilateLoop SLOTS HEIGHT diff anti c rest
      else
        let offset := ((diff - Clock.startIdx SLOTS k) / SLOTS ^ k + c.cursor k) % SLOTS
        some (c.setBucket k offset (annihilateScan anti (c.bucket k offset)))
    else annihilateLoop SLOTS HEIGHT diff anti c rest

/-- Planet::annihilate (src/mt/hybrid/planet.rs lines 256-300). The
timestamp difference is the same unguarded u64 subtraction as in
Clock::insert. The overflow fallback removes every matching message from
the heap (the index bookkeeping plus re-heapify of the source preserve
exactly the non-matching ones; the heap-internal order is not meaningful). -/
def annihilateSys [DecidableEq T] (SLOTS HEIGHT : ℕ)
    (sys : Clock (Msg T) × List (Msg T)) (anti : AntiMsg) :
    Clock (Msg T) × List (Msg T) :=
  let diff := u64Sub anti.time sys.1.step
  match annihilateLoop SLOTS HEIGHT diff anti sys.1 (List.range HEIGHT) with
  | some c2 => (c2, sys.2)
  | none => (sys.1, sys.2.filter (fun m => !anti.annihilate m))

/-- Planet::annihilate acts on the local mail system alone. -/
def annihilate [DecidableEq T] (SLOTS HEIGHT : ℕ) (p : Planet T σ)
    (anti : AntiMsg) : Planet T σ :=
  let sys := annihilateSys SLOTS HEIGHT (p.msgClock, p.msgOverflow) anti
  { p with msgClock := sys.1, msgOverflow := sys.2 }

/-- The anti-message reclamation loop inside Planet::rollback: each entry
returned by the journal is dispatched through the endpoint unless it
addresses this very world, in which case the wrapped anti-message is
annihilated locally (a Msg transfer addressed to self is skipped). -/
def reclaimAnti [DecidableEq T] (SLOTS HEIGHT : ℕ) (p : Planet T σ)
    (entry : Mail T × ℕ) : Planet T σ :=
  let anti := entry.1
  match anti.to_world with
  | some w =>
    if w = p.worldId then
      match anti.open_letter with
      | .AntiMsg a => p.annihilate SLOTS HEIGHT a
      | .Msg _ => p
    else { p with outbox := p.outbox ++ [anti] }
  | none => { p with outbox := p.outbox ++ [anti] }

/-- The anti-messages a rollback annihilates locally: the payloads of the
reclaimed journal entries that address this very world with an AntiMsg
transfer, in journal order. -/
def selfAntis {T : Type} (entries : List (Mail T × ℕ)) (wid : ℕ) : List AntiMsg :=
  entries.filterMap (fun e =>
    match e.1.to_world, e.1.open_letter with
    | some w, .AntiMsg a => if w = wid then some a else none
    | _, _ => none)

/-- Planet::rollback (src/mt/hybrid/planet.rs lines 223-254): TimeTravel
when the target is in the future; otherwise roll the world journal and
every agent journal, roll the message wheel, re-emit the reclaimed
anti-messages, roll the event wheel and store the target as the LVT. The
endpoint send is modelled as an append to the outbox (its transport error
is outside the embedded state). -/
def rollback [DecidableEq T] (SLOTS HEIGHT : ℕ) (p : Planet T σ) (t : ℕ) :
    Except SimError Unit × Planet T σ :=
  if t > p.evtClock.step then (.error .TimeTravel, p)
  else
    let ws := p.worldState.rollback t
    let ags := p.agentStates.map (fun j => j.rollback t)
    let mrb := clockRollbackSpec SLOTS HEIGHT false p.msgClock p.msgOverflow t
    let ar := p.antiMsgs.rollback_return t
    let p1 : Planet T σ :=
      { p with worldState := ws, agentStates := ags,
               msgClock := mrb.1, msgOverflow := mrb.2, antiMsgs := ar.1 }
    let p2 := ar.2.foldl (reclaimAnti SLOTS HEIGHT) p1
    let erb := clockRollbackSpec SLOTS HEIGHT true p2.evtClock p2.evtOverflow t
    (.ok (), { p2 with evtClock := erb.1, evtOverflow := erb.2, lvt := t })

/-- Every event currently scheduled on the planet: wheel plus overflow. -/
def eventsOf (p : Planet T σ) : List Event := p.evtClock.items ++ p.evtOverflow

/-- Every local message currently scheduled on the planet. -/
def msgsOf (p : Planet T σ) : List (Msg T) := p.msgClock.items ++ p.msgOverflow

end Planet

end PlanetModel

section GalaxyModel

/-- Truncating cast to i32 as released Rust computes n as i32 on a usize
(two's complement; a debug build is identical for casts). -/
def toI32 (n : ℕ) : ℤ := if n % 2 ^ 32 < 2 ^ 31 then (n % 2 ^ 32 : ℕ) else (n % 2 ^ 32 : ℕ) - 2 ^ 32

/-- Wrap an integer into the i32 range, the effect released Rust gives an
overflowing i32 addition or subtraction. -/
def i32Wrap (z : ℤ) : ℤ := (z + 2 ^ 31) % 2 ^ 32 - 2 ^ 31

/-- A reported time block (src/mt/hybrid/blocks.rs, struct Block). The
Rust field end is a Lean keyword and is embedded as stop; the
recvs_from_previous array of length BLOCK_SLOTS is a list. -/
structure Block where
  start : ℕ
  stop : ℕ
  sends : ℕ
  recvs : ℕ
  recvs_from_previous : List ℕ
  block_id : ℕ × ℕ
deriving DecidableEq, Repr

/-- The block-consensus coordinator (src/mt/hybrid/galaxy.rs, struct
Galaxy), restricted to the fields its embedded operations touch. The
blocks journal is the list of written (block, stamp) pairs; broadcasts is
the sequence of GVT values pushed through the broadcaster by the master
loop. -/
structure Galaxy where
  block_counter : ℕ
  block_size : ℕ
  blocksLog : List (Block × ℕ)
  next : List (Option Block)
  pending : List (List (Option Block))
  unmatched_sends : ℕ
  gvt : ℕ
  broadcasts : List ℕ
deriving DecidableEq, Repr

namespace Galaxy

/-- Placement of one polled block (the body of the inner loop of
Galaxy::poll_blocks, src/mt/hybrid/galaxy.rs lines 157-170): a block
starting right after the GVT goes into the next slot of its planet, any
other block lands diff pending slots further out, where diff is computed
with an unguarded u64 subtraction of the GVT from the block start;
DistantBlocks when diff reaches BLOCK_SLOTS. -/
def placeBlock (BS : ℕ) (g : Galaxy) (i : ℕ) (b : Block) :
    Except SimError Unit × Galaxy :=
  if b.start == g.gvt + 1 then
    (.ok (), { g with next := g.next.set i (some b) })
  else
    let diff := u64Sub b.start g.gvt / g.block_size - 1
    if diff ≥ BS then (.error (.DistantBlocks diff), g)
    else
      (.ok (),
        { g with pending := g.pending.set i ((g.pending.getD i []).set diff (some b)) })

/-- The inner loop of Galaxy::poll_blocks: place one planet's polled
blocks in order; an error aborts the remaining placements but keeps those
already made, exactly as the early return of the source does. -/
def placeRow (BS : ℕ) (g : Galaxy) (i : ℕ) :
    List Block → Except SimError Unit × Galaxy
  | [] => (.ok (), g)
  | b :: rest =>
    match placeBlock BS g i b with
    | (.ok _, g2) => placeRow BS g2 i rest
    | (.error e, g2) => (.error e, g2)

/-- The outer loop of Galaxy::poll_blocks over the per-planet reports. -/
def placeAll (BS : ℕ) (g : Galaxy) (i : ℕ) :
    List (List Block) → Except SimError Unit × Galaxy
  | [] => (.ok (), g)
  | row :: rest =>
    match placeRow BS g i row with
    | (.ok _, g2) => placeAll BS g2 (i + 1) rest
    | (.error e, g2) => (.error e, g2)

/-- Galaxy::poll_blocks (src/mt/hybrid/galaxy.rs lines 153-174) over an
already-polled batch of reports, one list of blocks per planet. -/
def poll_blocks (BS : ℕ) (g : Galaxy) (reports : List (List Block)) :
    Except SimError Unit × Galaxy :=
  placeAll BS g 0 reports

/-- Accumulator of the next-block statistics loop of
Galaxy::update_consensus (src/mt/hybrid/galaxy.rs lines 204-220). -/
structure NextStats where
  sends : ℕ
  recvs : ℕ
  start : ℕ
  stop : ℕ
  rfp : List ℕ
deriving DecidableEq, Repr

/-- Pointwise sum in the style of iter_mut().zip(other).for_each(add):
entries of the left list beyond the length of the right one are kept. -/
def zipAddKeep (xs ys : List ℕ) : List ℕ :=
  xs.zipWith (· + ·) ys ++ xs.drop ys.length

/-- One iteration of the statistics loop: accumulate sends and recvs,
capture the boundaries from the first block seen, fail with
MismatchBlockTimeStamps only when a later block differs from the captured
boundaries in BOTH start and end, and add up the recvs_from_previous
vectors pointwise. -/
def statsStep (counter : ℕ) (acc : Except SimError NextStats)
    (ob : Option Block) : Except SimError NextStats :=
  match acc, ob with
  | .error e, _ => .error e
  | .ok st, none => .ok st
  | .ok st, some b =>
    let st1 := { st with sends := st.sends + b.sends, recvs := st.recvs + b.recvs }
    let st2 :=
      if st1.start == st1.stop && st1.stop == 0 then
        { st1 with stop := b.stop, start := b.start }
      else st1
    if st2.stop != b.stop && st2.start != b.start then
      .error (.MismatchBlockTimeStamps counter b.start b.stop)
    else
      .ok { st2 with rfp := zipAddKeep st2.rfp b.recvs_from_previous }

/-- The late-receive count of Galaxy::update_consensus (lines 231-241):
for each planet walk the pending ring until the first empty slot, adding
the i-th recvs_from_previous entry of the block in slot i. -/
def lateRecvs (pending : List (List (Option Block))) : ℕ :=
  pending.foldl
    (fun acc row =>
      let rec walk (acc : ℕ) (i : ℕ) : List (Option Block) → ℕ
        | [] => acc
        | none :: _ => acc
        | some b :: rest => walk (acc + b.recvs_from_previous.getD i 0) (i + 1) rest
      walk acc 0 row)
    0

/-- Galaxy::commit_block (src/mt/hybrid/galaxy.rs lines 252-292): bump the
block counter, refuse an empty window (Block::new errors when end is not
after start), write the aggregate block to the journal, publish the end as
the new GVT, clear the next row, pull each planet's closest pending block
into next while summing its send/recv difference in i32 arithmetic, shift
the pending rings left, and fail with TimeTravel if that sum went
negative. Errors leave the mutations already performed in place, as the
early returns of the source do. -/
def commit_block (g : Galaxy) (start stop sends recvs : ℕ) (rfp : List ℕ) :
    Except SimError Unit × Galaxy :=
  let g1 := { g with block_counter := g.block_counter + 1 }
  if stop ≤ start then (.error .TimeTravel, g1)
  else
    let newB : Block :=
      { start := start, stop := stop, sends := sends, recvs := recvs,
        recvs_from_previous := rfp, block_id := (U64 - 1, g1.block_counter) }
    let rows := g1.pending
    let g2 := { g1 with
      blocksLog := g1.blocksLog ++ [(newB, stop)]
      gvt := stop
      next := (List.range g1.next.length).map
        (fun i => (rows.getD i []).headD none)
      pending := rows.map (fun row => row.drop 1 ++ [none]) }
    let np : ℤ := rows.foldl
      (fun acc row =>
        match row.headD none with
        | some b => i32Wrap (acc + i32Wrap (toI32 b.sends - toI32 b.recvs))
        | none => acc)
      0
    if np < 0 then (.error .TimeTravel, g2)
    else (.ok (), { g2 with unmatched_sends := np.toNat })

/-- Galaxy::update_consensus (src/mt/hybrid/galaxy.rs lines 195-250).
Returns some committed end time when a block was committed. The usize
subtractions sends - recvs and unmatched - late_recvs are unguarded in the
source and wrap in release builds; they are embedded through u64Sub. -/
def update_consensus (BS : ℕ) (g : Galaxy) : Except SimError (Option ℕ) × Galaxy :=
  if g.next.all (fun x => x.isSome) then
    let stats0 : NextStats :=
      { sends := 0, recvs := 0, start := 0, stop := 0,
        rfp := List.replicate BS 0 }
    match g.next.foldl (statsStep g.block_counter) (.ok stats0) with
    | .error e => (.error e, g)
    | .ok st =>
      let unmatched := u64Sub st.sends st.recvs
      let g1 := { g with unmatched_sends := unmatched }
      if unmatched == 0 && g1.gvt < st.stop then
        match commit_block g1 st.start st.stop st.sends st.recvs st.rfp with
        | (.ok _, g2) => (.ok (some st.stop), g2)
        | (.error e, g2) => (.error e, g2)
      else
        let late := lateRecvs g1.pending
        if u64Sub unmatched late == 0 then
          match commit_block g1 st.start st.stop st.sends st.recvs st.rfp with
          | (.ok _, g2) => (.ok (some st.stop), g2)
          | (.error e, g2) => (.error e, g2)
        else (.ok none, g1)
  else (.ok none, g)

/-- One successful round of the consensus stage of Galaxy::master (lines
332-334): run update_consensus and broadcast the committed GVT when a
block was committed. -/
def masterConsensus (BS : ℕ) (g : Galaxy) : Except SimError (Option ℕ) × Galaxy :=
  match update_consensus BS g with
  | (.ok (some e), g2) => (.ok (some e), { g2 with broadcasts := g2.broadcasts ++ [e] })
  | r => r

/-- Total sends over the reported next blocks. -/
def listSends (g : Galaxy) : ℕ := ((g.next.filterMap id).map Block.sends).sum

/-- Total recvs over the reported next blocks. -/
def listRecvs (g : Galaxy) : ℕ := ((g.next.filterMap id).map Block.recvs).sum

end Galaxy

/-- Modelled from the spec: a well-formed block report. The hybrid
planet in src reports send/recv counters rather than blocks, so the
producer side of the block channel is absent from src; the spec (section
4.5) has each planet report fixed-width time blocks that tile the
timeline, so a report of width w covers (start, start + w - 1) with start
one past a multiple of w. -/
def BlockWF (w : ℕ) (b : Block) : Prop :=
  b.stop = b.start + w - 1 ∧ b.start % w = 1

/-- The coordinator state invariant for the block variant: the GVT is a
multiple of the block width, every reported next block is exactly the
window that starts right after the GVT, and a block sitting j slots deep
in a pending ring is exactly the window j + 1 further out. -/
def GalaxyInv (w : ℕ) (g : Galaxy) : Prop :=
  2 ≤ w ∧ g.block_size = w ∧ g.gvt % w = 0 ∧
  (∀ b ∈ g.next, ∀ blk, b = some blk →
    blk.start = g.gvt + 1 ∧ blk.stop = g.gvt + w) ∧
  (∀ row ∈ g.pending, ∀ j blk, row.getD j none = some blk →
    blk.start = g.gvt + (j + 1) * w + 1 ∧ blk.stop = g.gvt + (j + 2) * w)

/-- The transitions the coordinator master loop performs on the embedded
state: placing a batch of polled well-formed future block reports, or one
consensus round. Mail delivery does not touch any embedded field. -/
inductive GalaxyTx (w BS : ℕ) : Galaxy → Galaxy → Prop
  | poll (g : Galaxy) (reports : List (List Block))
      (hwf : ∀ row ∈ reports, ∀ b ∈ row, BlockWF w b ∧ g.gvt < b.start) :
      GalaxyTx w BS g (Galaxy.poll_blocks BS g reports).2
  | consensus (g : Galaxy) : GalaxyTx w BS g (Galaxy.masterConsensus BS g).2

end GalaxyModel

section Fixtures

/-- A small concrete planet (SLOTS = 2, HEIGHT = 1 event and message
wheels, timestep 1.0, terminal 100.0) used to instantiate the planet
theorems. -/
def planetFix0 : Planet ℕ ℕ :=
  { worldState := ⟨[]⟩
    agentStates := []
    antiMsgs := ⟨[]⟩
    evtClock := Clock.new Event 2 1
    evtOverflow := []
    msgClock := Clock.new (Msg ℕ) 2 1
    msgOverflow := []
    lvt := 0
    worldId := 0
    outbox := []
    timestep := 1
    terminal := 100
    throttle_horizon := 5 }

/-- Two messages sharing the full identity (sent 0, recv 1, from 0, to
agent 0) but carrying different payloads. -/
def msgDup1 : Msg ℕ := Msg.new 7 0 1 0 (some 0)

/-- The second of the duplicate-identity messages. -/
def msgDup2 : Msg ℕ := Msg.new 8 0 1 0 (some 0)

/-- A planet whose message wheel holds the two duplicate-identity
messages in the level-0 bucket that annihilation for time 1 locates. -/
def planetFix1 : Planet ℕ ℕ :=
  { planetFix0 with
    msgClock := (Clock.new (Msg ℕ) 2 2).setBucket 0 1 [msgDup1, msgDup2] }

/-- The anti-message with the shared identity of the duplicates. -/
def antiDup : AntiMsg := AntiMsg.new 0 1 0 (some 0)

/-- A journaled anti-message envelope addressed to this very world. -/
def mailSelf : Mail ℕ :=
  { transfer := Transfer.AntiMsg antiDup, to_world := some 0, from_world := 0 }

/-- A journaled anti-message envelope addressed to another world. -/
def mailOther : Mail ℕ :=
  { transfer := Transfer.AntiMsg (AntiMsg.new 2 9 1 (some 1)), to_world := some 1,
    from_world := 0 }

/-- A planet at local time 5 with two journaled anti-messages stamped 4
and 5 (both after the rollback target 3) and one stamped 2. -/
def planetFix2 : Planet ℕ ℕ :=
  { planetFix1 with
    evtClock := { Clock.new Event 2 2 with step := 5 }
    antiMsgs := ⟨[(mailOther, 2), (mailSelf, 4), (mailOther, 5)]⟩
    lvt := 5 }

/-- A two-planet coordinator state whose reported next blocks agree on
start 1 but disagree on the end (16 versus 17), with no pending blocks
and no sends or recvs. -/
def galaxyFixMismatch : Galaxy :=
  { block_counter := 0
    block_size := 16
    blocksLog := []
    next := [some { start := 1, stop := 16, sends := 0, recvs := 0,
                    recvs_from_previous := [0], block_id := (0, 0) },
             some { start := 1, stop := 17, sends := 0, recvs := 0,
                    recvs_from_previous := [0], block_id := (1, 0) }]
    pending := [[none], [none]]
    unmatched_sends := 0
    gvt := 0
    broadcasts := [] }

/-- A one-planet coordinator state with one well-formed next block
(window 1..16 of width 16) and an empty pending ring. -/
def galaxyFixAligned : Galaxy :=
  { block_counter := 0
    block_size := 16
    blocksLog := []
    next := [some { start := 1, stop := 16, sends := 0, recvs := 0,
                    recvs_from_previous := [0, 0], block_id := (0, 0) }]
    pending := [[none, none]]
    unmatched_sends := 0
    gvt := 0
    broadcasts := [] }

end Fixtures

/-! Theorems. Each claim of the specification review is settled by exactly
one theorem below (plus a witness or counterexample where required). -/

section ListPermHelpers

/-- Replacing the i-th chunk of a chunked list by a permutation of e
consed onto it permutes the flattening into e consed on. -/
theorem perm_flatten_set_of_perm {α : Type} (e : α) :
    ∀ (N : List (List α)) (k : ℕ) (v : List α), k < N.length →
      v.Perm (e :: N.getD k []) → ((N.set k v).flatten).Perm (e :: N.flatten) := by
  intro N
  induction N with
  | nil => intro k v hk _; simp at hk
  | cons x xs ih =>
    intro k v hk hp
    cases k with
    | zero =>
      simp only [List.set_cons_zero, List.flatten_cons]
      have hp2 : v.Perm (e :: x) := by simpa [List.getD] using hp
      have h3 := hp2.append_right xs.flatten
      simpa using h3
    | succ k =>
      simp only [List.set_cons_succ, List.flatten_cons]
      have hk2 : k < xs.length := by simpa using hk
      have hp2 : v.Perm (e :: xs.getD k []) := by simpa [List.getD] using hp
      have hrec := ih k v hk2 hp2
      exact (hrec.append_left x).trans List.perm_middle

/-- Appending an item to the bucket at (k, j) of a well-formed clock adds
exactly that item to the flattened wheel contents. -/
theorem items_setBucket_append {T : Type} (c : Clock T) (k j : ℕ) (e : T)
    (hk : k < c.wheels.length) (hj : j < (c.wheels.getD k []).length) :
    ((c.setBucket k j (c.bucket k j ++ [e])).items).Perm (e :: c.items) := by
  unfold Clock.setBucket Clock.items Clock.bucket
  simp only
  rw [List.map_set]
  refine perm_flatten_set_of_perm e _ k _ (by simpa using hk) ?_
  have hget : (c.wheels.map (fun row => row.flatten)).getD k [] =
      (c.wheels.getD k []).flatten := by
    rw [List.getD_eq_getElem?_getD, List.getD_eq_getElem?_getD,
      List.getElem?_map, List.getElem?_eq_getElem hk]
    simp
  rw [hget]
  refine perm_flatten_set_of_perm e _ j _ hj ?_
  exact List.perm_append_singleton e _

end ListPermHelpers

section InsertSpec

/-- The level loop of Clock::insert either hands the item back with the
clock untouched, or appends it to one in-range bucket of one in-range
level. -/
theorem insertLoop_spec {T : Type} [Scheduleable T] (S H d : ℕ) (e : T) :
    ∀ (ks : List ℕ) (c : Clock T),
      Clock.insertLoop S H d e c ks = (c, some e) ∨
      ∃ k off, k ∈ ks ∧ off < S ∧ 0 < S ∧
        Clock.insertLoop S H d e c ks =
          (c.setBucket k off (c.bucket k off ++ [e]), none) := by
  intro ks
  induction ks with
  | nil => intro c; exact Or.inl rfl
  | cons k rest ih =>
    intro c
    unfold Clock.insertLoop
    by_cases h1 : d ≥ Clock.startIdx S k
    · rw [if_pos h1]
      by_cases h2 : d ≥ (S ^ (1 + H) - S) / (S - 1)
      · rw [if_pos h2]
        exact Or.inl rfl
      · rw [if_neg h2]
        by_cases h3 : d > Clock.endIdx S k
        · rw [if_pos h3]
          rcases ih c with h | ⟨k2, off, hk2, hoff, hS, h⟩
          · exact Or.inl h
          · exact Or.inr ⟨k2, off, List.mem_cons_of_mem _ hk2, hoff, hS, h⟩
        · rw [if_neg h3]
          have hS : 0 < S := by
            by_contra hS0
            have hZ : S = 0 := by omega
            subst hZ
            simp [Clock.startIdx] at h2
          exact Or.inr ⟨k, _, List.mem_cons_self k rest, Nat.mod_lt _ hS, hS, rfl⟩
    · rw [if_neg h1]
      rcases ih c with h | ⟨k2, off, hk2, hoff, hS, h⟩
      · exact Or.inl h
      · exact Or.inr ⟨k2, off, List.mem_cons_of_mem _ hk2, hoff, hS, h⟩

/-- Clock::insert either returns the item for the overflow heap with the
clock untouched, or places exactly that item into the wheels, leaving the
step and the cursors alone. -/
theorem insert_spec {T : Type} [Scheduleable T] (S H : ℕ) (c : Clock T) (e : T)
    (hd : Clock.Dims S H c) :
    Clock.insert S H c e = (c, some e) ∨
    ((Clock.insert S H c e).2 = none ∧
      ((Clock.insert S H c e).1.items).Perm (e :: c.items) ∧
      (Clock.insert S H c e).1.step = c.step ∧
      (Clock.insert S H c e).1.currentIdxs = c.currentIdxs) := by
  obtain ⟨hlen, hrow, hidx⟩ := hd
  unfold Clock.insert
  rcases insertLoop_spec S H (u64Sub (Scheduleable.time e) c.step) e
      (List.range H) c with h | ⟨k, off, hk, hoff, hS, h⟩
  · exact Or.inl h
  · right
    rw [h]
    have hkH : k < H := List.mem_range.mp hk
    have hkw : k < c.wheels.length := by omega
    have hjw : off < (c.wheels.getD k []).length := by
      have hmem : c.wheels.getD k [] ∈ c.wheels := by
        rw [List.getD_eq_getElem?_getD, List.getElem?_eq_getElem hkw]
        exact List.getElem_mem ..
      rw [hrow _ hmem]
      exact hoff
    exact ⟨rfl, items_setBucket_append c k off e hkw hjw, rfl, rfl⟩

end InsertSpec

section ClaimC10

/-- C10: AntiMsg equality ignores the sender and receiver identity - it
holds exactly when the two timestamps agree - the Ord comparison is a
function of the received timestamps alone, so two anti-messages from
different agents with equal timestamps compare equal, while annihilation
pairing demands all four identity fields. -/
theorem antiMsg_identity_blind_eq_ord :
    ∀ (a b c d : AntiMsg) (T : Type) (m : Msg T),
      (AntiMsg.beq a b = true ↔ (a.sent = b.sent ∧ a.received = b.received)) ∧
      (a.received = c.received → b.received = d.received →
        AntiMsg.cmp a b = AntiMsg.cmp c d) ∧
      (AntiMsg.annihilate a m = true ↔
        (a.sent = m.sent ∧ a.received = m.recv ∧
          a.fromId = m.fromId ∧ a.toId = m.toId)) := by
  intro a b c d T m
  refine ⟨?_, ?_, ?_⟩
  · simp [AntiMsg.beq]
  · intro h1 h2
    simp [AntiMsg.cmp, h1, h2]
  · simp [AntiMsg.annihilate, and_assoc]

/-- Instantiation of the C10 theorem: anti-messages from agent 3 to agent
4 and from agent 5 broadcast, sharing timestamps (1, 2), are equal and
order the same, yet the first does not annihilate a message from agent 5. -/
theorem antiMsg_identity_blind_eq_ord_witness :
    AntiMsg.beq (AntiMsg.new 1 2 3 (some 4)) (AntiMsg.new 1 2 5 none) = true ∧
    AntiMsg.cmp (AntiMsg.new 1 2 3 (some 4)) (AntiMsg.new 4 2 9 none) =
      AntiMsg.cmp (AntiMsg.new 0 2 0 none) (AntiMsg.new 7 2 7 (some 0)) ∧
    AntiMsg.annihilate (AntiMsg.new 1 2 3 (some 4))
      (Msg.new (0 : ℕ) 1 2 5 (some 4)) = false := by
  obtain ⟨h1, h2, h3⟩ :=
    antiMsg_identity_blind_eq_ord (AntiMsg.new 1 2 3 (some 4)) (AntiMsg.new 4 2 9 none)
      (AntiMsg.new 0 2 0 none) (AntiMsg.new 7 2 7 (some 0)) ℕ
      (Msg.new (0 : ℕ) 1 2 5 (some 4))
  refine ⟨?_, h2 rfl rfl, ?_⟩
  · exact (antiMsg_identity_blind_eq_ord (AntiMsg.new 1 2 3 (some 4))
      (AntiMsg.new 1 2 5 none) (AntiMsg.new 0 2 0 none) (AntiMsg.new 7 2 7 (some 0)) ℕ
      (Msg.new (0 : ℕ) 1 2 5 (some 4))).1.mpr ⟨rfl, rfl⟩
  · rw [← Bool.not_eq_true]
    intro hc
    exact absurd (h3.mp hc).2.2.1 (by decide)

end ClaimC10

section ClaimC8

/-- C8: the delay subtraction of Clock::insert is NOT guarded. At SLOTS =
128, HEIGHT = 4 and step 1, inserting an item with time 0 (delay -1)
computes the wrapped u64 delta 2 ^ 64 - 1, which exceeds the wheel horizon,
so the item is handed back to the caller exactly as a far-future item
would be - LocalEventSystem::insert then parks the past item in the
overflow heap - instead of being rejected (a debug build panics on the
subtraction instead). -/
theorem insert_negative_delay_wraps_to_overflow :
    u64Sub (Event.new 0 0 0 Action.Wait).time
        ({ Clock.new Event 128 4 with step := 1 } : Clock Event).step = 2 ^ 64 - 1 ∧
    Clock.startIdx 128 4 ≤ 2 ^ 64 - 1 ∧
    Clock.insert 128 4 ({ Clock.new Event 128 4 with step := 1 })
        (Event.new 0 0 0 Action.Wait) =
      ({ Clock.new Event 128 4 with step := 1 }, some (Event.new 0 0 0 Action.Wait)) := by
  refine ⟨by decide, by decide, ?_⟩
  decide

end ClaimC8

section ClaimC9

/-- Re-inserting a batch of swept items only ever appends to the
overflow accumulator. -/
theorem insertFold_overflow_mono {T : Type} [Scheduleable T] [DecidableEq T]
    (SLOTS HEIGHT : ℕ) (l : List T) :
    ∀ (c : Clock T) (of : List T) (x : T), x ∈ of →
      x ∈ (l.foldl
        (fun (acc : Clock T × List T) e =>
          match Clock.insert SLOTS HEIGHT acc.1 e with
          | (c4, none) => (c4, acc.2)
          | (c4, some e2) => (c4, acc.2 ++ [e2]))
        (c, of)).2 := by
  induction l with
  | nil => intro c of x hx; simpa using hx
  | cons e rest ih =>
    intro c of x hx
    simp only [List.foldl_cons]
    rcases hins : Clock.insert SLOTS HEIGHT c e with ⟨c4, mo⟩
    rcases mo with _ | e2
    · exact ih c4 of x hx
    · exact ih c4 (of ++ [e2]) x (List.mem_append_left _ hx)

/-- Any k taken from the positions 1..HEIGHT-1 that rotate iterates over
never enters the HEIGHT == k drain branch, so a rotation step only ever
adds to the overflow. -/
theorem rotateLevel_preserves_overflow {T : Type} [Scheduleable T] [DecidableEq T]
    (SLOTS HEIGHT : ℕ) (st : Clock T × List T) (k : ℕ) (hk : k < HEIGHT)
    (x : T) (hx : x ∈ st.2) : x ∈ (Clock.rotateLevel SLOTS HEIGHT st k).2 := by
  obtain ⟨c, overflow⟩ := st
  unfold Clock.rotateLevel
  by_cases hper : c.step % SLOTS ^ k == 0
  · simp only [hper, if_true]
    have hne : (HEIGHT == k) = false := by
      simp only [beq_eq_false_iff_ne]; omega
    simp only [hne, Bool.false_eq_true, if_false]
    exact insertFold_overflow_mono SLOTS HEIGHT _ _ overflow x hx
  · simp only [hper, Bool.false_eq_true, if_false]
    exact hx

/-- C9: the top-wheel overflow drain never happens. The drain branch of
Clock::rotate is guarded by HEIGHT == k inside for k in 1..HEIGHT, which
no iteration satisfies, so no rotation - in particular not one at the
topmost rotation period - ever removes an item from the overflow heap
(for HEIGHT = 1 the loop body is empty altogether). -/
theorem rotate_never_drains_overflow {T : Type} [Scheduleable T] [DecidableEq T]
    (SLOTS HEIGHT : ℕ) (c : Clock T) (overflow : List T) (x : T)
    (hx : x ∈ overflow) : x ∈ (Clock.rotate SLOTS HEIGHT c overflow).2 := by
  unfold Clock.rotate
  have hsub : ∀ k ∈ (List.range HEIGHT).drop 1, k < HEIGHT := by
    intro k hk
    exact List.mem_range.mp (List.mem_of_mem_drop hk)
  revert hsub
  generalize (List.range HEIGHT).drop 1 = ks
  intro hsub
  induction ks generalizing c overflow with
  | nil => simpa using hx
  | cons k rest ih =>
    simp only [List.foldl_cons]
    rcases hst : Clock.rotateLevel SLOTS HEIGHT (c, overflow) k with ⟨c2, of2⟩
    have hx2 : x ∈ of2 := by
      have := rotateLevel_preserves_overflow SLOTS HEIGHT (c, overflow) k
        (hsub k (List.mem_cons_self k rest)) x hx
      rwa [hst] at this
    exact ih c2 of2 hx2 (fun j hj => hsub j (List.mem_cons_of_mem _ hj))

/-- Instantiation of the C9 theorem at the failing input: a SLOTS = 2,
HEIGHT = 2 clock at step 4 - a top-level rotation period - rotates without
touching its one overflow item, where the specification has the rotation
pop up to SLOTS ^ (HEIGHT - 1) = 2 items. -/
theorem rotate_never_drains_overflow_witness :
    Event.new 0 9 0 Action.Wait ∈
      (Clock.rotate 2 2 ({ Clock.new Event 2 2 with step := 4 })
        [Event.new 0 9 0 Action.Wait]).2 :=
  rotate_never_drains_overflow 2 2 ({ Clock.new Event 2 2 with step := 4 })
    [Event.new 0 9 0 Action.Wait] (Event.new 0 9 0 Action.Wait) (by decide)

end ClaimC9

section ClaimC7

/-- C7 fails on the code: an event whose delay reaches the wheel horizon
is handed back by insert and parked in the overflow heap by the caller,
and because rotate never drains that heap (the dead HEIGHT == k branch),
repeated tick/increment cycles never yield it: with SLOTS = 2, HEIGHT = 2,
an event due at time 6 inserted at step 0 is returned by insert, yields in
none of the 12 cycles that pass its due time, and is still sitting in the
overflow heap at step 12. -/
theorem event_beyond_horizon_never_delivered :
    Clock.insert 2 2 (Clock.new Event 2 2) (Event.new 0 6 0 Action.Wait) =
      (Clock.new Event 2 2, some (Event.new 0 6 0 Action.Wait)) ∧
    (Clock.tickIncrementCycles 2 2 12
        (Clock.new Event 2 2, [Event.new 0 6 0 Action.Wait])).1 = [] ∧
    (Clock.tickIncrementCycles 2 2 12
        (Clock.new Event 2 2, [Event.new 0 6 0 Action.Wait])).2.1.step = 12 ∧
    (Clock.tickIncrementCycles 2 2 12
        (Clock.new Event 2 2, [Event.new 0 6 0 Action.Wait])).2.2 =
      [Event.new 0 6 0 Action.Wait] := by
  refine ⟨by decide, by decide, by decide, by decide⟩

end ClaimC7

section ClaimC1

/-- Effect of a single outer-loop iteration on the LVT bound: sleeping and
rolling back never raise it, and the throttle gate only lets a step
through while now is at most gvt + H, so now can reach gvt + H + 1 but
no further. -/
theorem runIter_le (H G now : ℕ) (o : RunObs)
    (ho : ∀ g, o = RunObs.tryStep g → g ≤ G) (h : now ≤ G + H + 1) :
    runIter H now o ≤ G + H + 1 := by
  cases o with
  | sleep => simpa [runIter] using h
  | roll r =>
    simp only [runIter]
    split <;> omega
  | tryStep g =>
    have hg : g ≤ G := ho g rfl
    simp only [runIter]
    split <;> omega

/-- C1 (amended): along any trace of outer-loop iterations in which every
observed GVT value is at most G, the LVT never exceeds G +
throttle_horizon + 1. The bound is one more than the claimed G + H: the
gate admits a step whenever now is at most gvt + H, so the step taken at
now = gvt + H lands on gvt + H + 1, where the planet then throttles (the
source test test_gvt_throttling asserts exactly now() at most 11 for H =
10, GVT = 0). -/
theorem throttle_bound_plus_one (H G now0 : ℕ) (obs : List RunObs)
    (hg : ∀ o ∈ obs, ∀ g, o = RunObs.tryStep g → g ≤ G)
    (h0 : now0 ≤ G + H + 1) : runTrace H obs now0 ≤ G + H + 1 := by
  induction obs generalizing now0 with
  | nil => simpa [runTrace] using h0
  | cons o rest ih =>
    simp only [runTrace, List.foldl_cons]
    exact ih (runIter H now0 o) (fun o2 ho2 => hg o2 (List.mem_cons_of_mem _ ho2))
      (runIter_le H G now0 o (hg o (List.mem_cons_self o rest)) h0)

/-- Counterexample to C1 as stated: a planet with throttle_horizon 10
whose observed GVT stays pinned at 0 advances its LVT to 11 - beyond step
10 - because the gate only throttles strictly above gvt + H. -/
theorem throttle_bound_counterexample :
    10 < runTrace 10 (List.replicate 12 (RunObs.tryStep 0)) 0 := by decide

/-- Instantiation of the amended C1 theorem: with H = 10, all observations
pinned at GVT = 0 and LVT starting at 0, the LVT stays at most 11. -/
theorem throttle_bound_plus_one_witness :
    runTrace 10 (List.replicate 12 (RunObs.tryStep 0)) 0 ≤ 0 + 10 + 1 :=
  throttle_bound_plus_one 10 0 0 (List.replicate 12 (RunObs.tryStep 0))
    (by
      intro o ho g hge
      have h0 : o = RunObs.tryStep 0 := List.eq_of_mem_replicate ho
      rw [h0] at hge
      injection hge with h
      omega)
    (by decide)

end ClaimC1

section ClaimC5

/-- C5: the scheduling contract of Planet::schedule (and the identical
World::schedule): TimeTravel when the target is in the past, PastTerminal
when the target time scaled by the timestep exceeds the terminal (checked
after the past check, as in the source), and otherwise success that adds
exactly Event(commit_time = now, time = t, agent, Wait) to the scheduled
events (wheel plus overflow) while every other piece of state, including
the current time, is untouched; both error returns leave the state
exactly as it was. -/
theorem schedule_contract {T σ : Type} [DecidableEq T] (S H : ℕ)
    (p : Planet T σ) (t a : ℕ) (hd : Clock.Dims S H p.evtClock) :
    (t < p.now → Planet.schedule S H p t a = (.error .TimeTravel, p)) ∧
    (¬ t < p.now → (t : ℚ) * p.timestep > p.terminal →
      Planet.schedule S H p t a = (.error .PastTerminal, p)) ∧
    (¬ t < p.now → ¬ ((t : ℚ) * p.timestep > p.terminal) →
      (Planet.schedule S H p t a).1 = .ok () ∧
      ((Planet.schedule S H p t a).2.eventsOf).Perm
        (Event.new p.now t a Action.Wait :: p.eventsOf) ∧
      (Planet.schedule S H p t a).2.now = p.now ∧
      (Planet.schedule S H p t a).2.msgClock = p.msgClock ∧
      (Planet.schedule S H p t a).2.msgOverflow = p.msgOverflow ∧
      (Planet.schedule S H p t a).2.worldState = p.worldState ∧
      (Planet.schedule S H p t a).2.agentStates = p.agentStates ∧
      (Planet.schedule S H p t a).2.antiMsgs = p.antiMsgs ∧
      (Planet.schedule S H p t a).2.lvt = p.lvt ∧
      (Planet.schedule S H p t a).2.outbox = p.outbox) := by
  refine ⟨?_, ?_, ?_⟩
  · intro h1
    simp only [Planet.schedule, if_pos h1]
  · intro h1 h2
    simp only [Planet.schedule, if_neg h1, if_pos h2]
  · intro h1 h2
    simp only [Planet.schedule, if_neg h1, if_neg h2]
    rcases insert_spec S H p.evtClock (Event.new p.now t a Action.Wait) hd with
      hl | ⟨h0, hperm, hstep, _⟩
    · unfold Planet.commit
      rw [hl]
      refine ⟨by trivial, ?_, by trivial, by trivial, by trivial, by trivial, by trivial, by trivial, by trivial, by trivial⟩
      unfold Planet.eventsOf
      simp only
      rw [← List.append_assoc]
      exact List.perm_append_singleton _ _
    · unfold Planet.commit
      rcases hins : Clock.insert S H p.evtClock (Event.new p.now t a Action.Wait) with ⟨c2, mo⟩
      rw [hins] at h0 hperm hstep
      cases mo with
      | some e2 => simp at h0
      | none =>
        simp only
        refine ⟨by trivial, ?_, hstep, by trivial, by trivial, by trivial, by trivial, by trivial, by trivial, by trivial⟩
        unfold Planet.eventsOf
        simp only
        simpa using hperm.append_right p.evtOverflow

/-- Instantiation of the C5 theorem at the concrete fixture planet with
target time 3 and agent 0 (wheel dimensions discharged by computation). -/
theorem schedule_contract_witness :
    ((3 : ℕ) < planetFix0.now →
      Planet.schedule 2 1 planetFix0 3 0 = (.error .TimeTravel, planetFix0)) ∧
    (¬ (3 : ℕ) < planetFix0.now → (3 : ℚ) * planetFix0.timestep > planetFix0.terminal →
      Planet.schedule 2 1 planetFix0 3 0 = (.error .PastTerminal, planetFix0)) ∧
    (¬ (3 : ℕ) < planetFix0.now → ¬ ((3 : ℚ) * planetFix0.timestep > planetFix0.terminal) →
      (Planet.schedule 2 1 planetFix0 3 0).1 = .ok () ∧
      ((Planet.schedule 2 1 planetFix0 3 0).2.eventsOf).Perm
        (Event.new planetFix0.now 3 0 Action.Wait :: planetFix0.eventsOf) ∧
      (Planet.schedule 2 1 planetFix0 3 0).2.now = planetFix0.now ∧
      (Planet.schedule 2 1 planetFix0 3 0).2.msgClock = planetFix0.msgClock ∧
      (Planet.schedule 2 1 planetFix0 3 0).2.msgOverflow = planetFix0.msgOverflow ∧
      (Planet.schedule 2 1 planetFix0 3 0).2.worldState = planetFix0.worldState ∧
      (Planet.schedule 2 1 planetFix0 3 0).2.agentStates = planetFix0.agentStates ∧
      (Planet.schedule 2 1 planetFix0 3 0).2.antiMsgs = planetFix0.antiMsgs ∧
      (Planet.schedule 2 1 planetFix0 3 0).2.lvt = planetFix0.lvt ∧
      (Planet.schedule 2 1 planetFix0 3 0).2.outbox = planetFix0.outbox) :=
  schedule_contract 2 1 planetFix0 3 0 (by decide)

end ClaimC5

section ClaimC6

/-- getD after setting another position is unchanged. -/
theorem getD_set_ne_list {α : Type} (l : List α) (i j : ℕ) (v d : α) (h : i ≠ j) :
    (l.set i v).getD j d = l.getD j d := by
  rw [List.getD_eq_getElem?_getD, List.getD_eq_getElem?_getD, List.getElem?_set_ne h]

/-- getD after setting the same in-bounds position yields the new value. -/
theorem getD_set_self_list {α : Type} (l : List α) (i : ℕ) (v d : α)
    (h : i < l.length) : (l.set i v).getD i d = v := by
  rw [List.getD_eq_getElem?_getD, List.getElem?_set_self h]
  simp

/-- Buckets other than the one rewritten are untouched by setBucket (for
an in-bounds level). -/
theorem bucket_setBucket_ne {T : Type} (c : Clock T) (k j k2 j2 : ℕ) (b : List T)
    (hk : k < c.wheels.length) (hne : ¬(k2 = k ∧ j2 = j)) :
    (c.setBucket k j b).bucket k2 j2 = c.bucket k2 j2 := by
  unfold Clock.setBucket Clock.bucket
  simp only
  by_cases hkk : k2 = k
  · subst hkk
    have hj : j2 ≠ j := fun h => hne ⟨rfl, h⟩
    rw [getD_set_self_list _ _ _ _ hk, getD_set_ne_list _ _ _ _ _ (Ne.symm hj)]
  · rw [getD_set_ne_list _ _ _ _ _ fun h => hkk h.symm]

/-- The rewritten bucket of setBucket holds exactly the new list (for
in-bounds indices). -/
theorem bucket_setBucket_self {T : Type} (c : Clock T) (k j : ℕ) (b : List T)
    (hk : k < c.wheels.length) (hj : j < (c.wheels.getD k []).length) :
    (c.setBucket k j b).bucket k j = b := by
  unfold Clock.setBucket Clock.bucket
  simp only
  rw [getD_set_self_list _ _ _ _ hk, getD_set_self_list _ _ _ _ hj]

/-- Consecutive boundary arithmetic of the wheel geometry: for SLOTS at
least 2, level k ends exactly one short of where level k + 1 begins. -/
theorem endIdx_add_one {S : ℕ} (hS : 2 ≤ S) (k : ℕ) :
    Clock.endIdx S k + 1 = Clock.startIdx S (k + 1) := by
  unfold Clock.endIdx Clock.startIdx
  have h2 : 2 + k = 1 + (k + 1) := by omega
  rw [h2]
  have hq : 1 ≤ (S ^ (1 + (k + 1)) - S) / (S - 1) := by
    rw [Nat.one_le_div_iff (by omega)]
    have hp : S * S ≤ S ^ (1 + (k + 1)) := by
      calc S * S = S ^ 2 := (sq S).symm
        _ ≤ S ^ (1 + (k + 1)) := Nat.pow_le_pow_right (by omega) (by omega)
    have h2S : 2 * S ≤ S * S := Nat.mul_le_mul_right S hS
    omega
  omega

/-- For a timestamp within the wheel horizon, the level loop of
Planet::annihilate finds the unique level whose range contains the
difference and rewrites exactly the bucket the insert geometry would use,
scanning it with annihilateScan. -/
theorem annihilateLoop_locates {T : Type} (S H : ℕ) (anti : AntiMsg) (hS : 2 ≤ S) :
    ∀ (n k0 diff : ℕ) (c : Clock (Msg T)),
      Clock.startIdx S k0 ≤ diff → k0 + n = H → diff < Clock.startIdx S H →
      ∃ k, k0 ≤ k ∧ k < H ∧ Clock.startIdx S k ≤ diff ∧ diff ≤ Clock.endIdx S k ∧
        Planet.annihilateLoop S H diff anti c (List.range' k0 n) =
          some (c.setBucket k (((diff - Clock.startIdx S k) / S ^ k + c.cursor k) % S)
            (Planet.annihilateScan anti
              (c.bucket k (((diff - Clock.startIdx S k) / S ^ k + c.cursor k) % S)))) := by
  intro n
  induction n with
  | zero =>
    intro k0 diff c hlo hkn hhi
    have hk0 : k0 = H := by omega
    subst hk0
    omega
  | succ n ih =>
    intro k0 diff c hlo hkn hhi
    rw [List.range']
    unfold Planet.annihilateLoop
    rw [if_pos hlo]
    have hnothor : ¬ diff ≥ (S ^ (1 + H) - S) / (S - 1) := by
      unfold Clock.startIdx at hhi
      omega
    rw [if_neg hnothor]
    by_cases hend : diff > Clock.endIdx S k0
    · rw [if_pos hend]
      have hlo2 : Clock.startIdx S (k0 + 1) ≤ diff := by
        have := endIdx_add_one hS k0
        omega
      obtain ⟨k, hk0, hkH, h1, h2, h3⟩ := ih (k0 + 1) diff c hlo2 (by omega) hhi
      exact ⟨k, by omega, hkH, h1, h2, h3⟩
    · rw [if_neg hend]
      exact ⟨k0, le_refl k0, by omega, hlo, by omega, rfl⟩

/-- A timestamp at or beyond the wheel horizon makes the level loop fall
through to the overflow scan at the very first level. -/
theorem annihilateLoop_beyond {T : Type} (S H diff : ℕ) (anti : AntiMsg)
    (c : Clock (Msg T)) (hH : 0 < H) (hhor : Clock.startIdx S H ≤ diff) :
    Planet.annihilateLoop S H diff anti c (List.range H) = none := by
  obtain ⟨m, rfl⟩ : ∃ m, H = m + 1 := ⟨H - 1, by omega⟩
  rw [List.range_eq_range', List.range']
  unfold Planet.annihilateLoop
  rw [if_pos (by simp [Clock.startIdx])]
  rw [if_pos (by unfold Clock.startIdx at hhor; omega)]

/-- C6 (amended): Planet::annihilate removes EVERY message matching the
anti-message in all four identity fields - in particular the unique match
when identities are unique - never a message differing in any field, and
touches nothing else: within the horizon only the bucket the insert
geometry locates is rewritten (its non-matching messages all survive,
their order reversed by the scan) and the overflow is untouched; at or
beyond the horizon the wheel is untouched and every match is removed from
the overflow heap. -/
theorem annihilate_removes_every_match {T σ : Type} [DecidableEq T] (S H : ℕ)
    (p : Planet T σ) (anti : AntiMsg) (hS : 2 ≤ S) (hH : 0 < H)
    (hd : Clock.Dims S H p.msgClock) (ht : p.msgClock.step ≤ anti.time) :
    (Clock.startIdx S H ≤ anti.time - p.msgClock.step →
      (Planet.annihilate S H p anti).msgClock = p.msgClock ∧
      (Planet.annihilate S H p anti).msgOverflow =
        p.msgOverflow.filter (fun m => !anti.annihilate m)) ∧
    (anti.time - p.msgClock.step < Clock.startIdx S H →
      (Planet.annihilate S H p anti).msgOverflow = p.msgOverflow ∧
      ∃ k, k < H ∧ Clock.startIdx S k ≤ anti.time - p.msgClock.step ∧
        anti.time - p.msgClock.step ≤ Clock.endIdx S k ∧
        (∀ k2 j2, ¬(k2 = k ∧ j2 = ((anti.time - p.msgClock.step - Clock.startIdx S k) / S ^ k
            + p.msgClock.cursor k) % S) →
          (Planet.annihilate S H p anti).msgClock.bucket k2 j2 = p.msgClock.bucket k2 j2) ∧
        (∀ x : Msg T, anti.annihilate x = true →
          x ∉ (Planet.annihilate S H p anti).msgClock.bucket k
            (((anti.time - p.msgClock.step - Clock.startIdx S k) / S ^ k
              + p.msgClock.cursor k) % S)) ∧
        (∀ x : Msg T, anti.annihilate x = false →
          ((Planet.annihilate S H p anti).msgClock.bucket k
            (((anti.time - p.msgClock.step - Clock.startIdx S k) / S ^ k
              + p.msgClock.cursor k) % S)).count x =
          (p.msgClock.bucket k
            (((anti.time - p.msgClock.step - Clock.startIdx S k) / S ^ k
              + p.msgClock.cursor k) % S)).count x) ∧
        (Planet.annihilate S H p anti).msgClock.step = p.msgClock.step ∧
        (Planet.annihilate S H p anti).msgClock.currentIdxs = p.msgClock.currentIdxs) := by
  obtain ⟨hlen, hrow, hidx⟩ := hd
  have hdiff : u64Sub anti.time p.msgClock.step = anti.time - p.msgClock.step := by
    unfold u64Sub
    rw [if_pos ht]
  constructor
  · intro hhor
    simp only [Planet.annihilate, Planet.annihilateSys]
    rw [hdiff, annihilateLoop_beyond S H _ anti _ hH hhor]
    exact ⟨rfl, rfl⟩
  · intro hhi
    simp only [Planet.annihilate, Planet.annihilateSys]
    rw [hdiff]
    obtain ⟨k, _, hkH, h1, h2, h3⟩ :=
      annihilateLoop_locates S H anti hS H 0 (anti.time - p.msgClock.step) p.msgClock
        (by simp [Clock.startIdx]) (by omega) hhi
    rw [← List.range_eq_range'] at h3
    rw [h3]
    have hkw : k < p.msgClock.wheels.length := by omega
    have hjw : ((anti.time - p.msgClock.step - Clock.startIdx S k) / S ^ k
        + p.msgClock.cursor k) % S < (p.msgClock.wheels.getD k []).length := by
      have hmem : p.msgClock.wheels.getD k [] ∈ p.msgClock.wheels := by
        rw [List.getD_eq_getElem?_getD, List.getElem?_eq_getElem hkw]
        exact List.getElem_mem ..
      rw [hrow _ hmem]
      exact Nat.mod_lt _ (by omega)
    refine ⟨rfl, k, hkH, h1, h2, ?_, ?_, ?_, rfl, rfl⟩
    · intro k2 j2 hne
      exact bucket_setBucket_ne p.msgClock k _ k2 j2 _ hkw hne
    · intro x hx
      rw [bucket_setBucket_self p.msgClock k _ _ hkw hjw]
      unfold Planet.annihilateScan
      intro hmemx
      have := (List.mem_filter.mp hmemx).2
      rw [hx] at this
      simp at this
    · intro x hx
      rw [bucket_setBucket_self p.msgClock k _ _ hkw hjw]
      unfold Planet.annihilateScan
      rw [List.count_filter (by rw [hx]; rfl), List.count_reverse]

/-- Counterexample to C6 as stated: two distinct messages sharing the
full identity (different payloads) sit in the located bucket; annihilate
empties the bucket, removing both rather than exactly the first. -/
theorem annihilate_first_match_counterexample :
    (planetFix1.msgClock.bucket 0 1) = [msgDup1, msgDup2] ∧
    msgDup1 ≠ msgDup2 ∧
    AntiMsg.annihilate antiDup msgDup1 = true ∧
    AntiMsg.annihilate antiDup msgDup2 = true ∧
    (Planet.annihilate 2 2 planetFix1 antiDup).msgClock.bucket 0 1 = [] := by
  refine ⟨by decide, by decide, by decide, by decide, by decide⟩

/-- Instantiation of the amended C6 theorem at the fixture planet and
anti-message (dimensions, horizon and ordering side conditions discharged
by computation). -/
theorem annihilate_removes_every_match_witness :
    (Clock.startIdx 2 2 ≤ antiDup.time - planetFix1.msgClock.step →
      (Planet.annihilate 2 2 planetFix1 antiDup).msgClock = planetFix1.msgClock ∧
      (Planet.annihilate 2 2 planetFix1 antiDup).msgOverflow =
        planetFix1.msgOverflow.filter (fun m => !antiDup.annihilate m)) ∧
    (antiDup.time - planetFix1.msgClock.step < Clock.startIdx 2 2 →
      (Planet.annihilate 2 2 planetFix1 antiDup).msgOverflow = planetFix1.msgOverflow ∧
      ∃ k, k < 2 ∧ Clock.startIdx 2 k ≤ antiDup.time - planetFix1.msgClock.step ∧
        antiDup.time - planetFix1.msgClock.step ≤ Clock.endIdx 2 k ∧
        (∀ k2 j2, ¬(k2 = k ∧ j2 = ((antiDup.time - planetFix1.msgClock.step - Clock.startIdx 2 k) / 2 ^ k
            + planetFix1.msgClock.cursor k) % 2) →
          (Planet.annihilate 2 2 planetFix1 antiDup).msgClock.bucket k2 j2 =
            planetFix1.msgClock.bucket k2 j2) ∧
        (∀ x : Msg ℕ, antiDup.annihilate x = true →
          x ∉ (Planet.annihilate 2 2 planetFix1 antiDup).msgClock.bucket k
            (((antiDup.time - planetFix1.msgClock.step - Clock.startIdx 2 k) / 2 ^ k
              + planetFix1.msgClock.cursor k) % 2)) ∧
        (∀ x : Msg ℕ, antiDup.annihilate x = false →
          ((Planet.annihilate 2 2 planetFix1 antiDup).msgClock.bucket k
            (((antiDup.time - planetFix1.msgClock.step - Clock.startIdx 2 k) / 2 ^ k
              + planetFix1.msgClock.cursor k) % 2)).count x =
          (planetFix1.msgClock.bucket k
            (((antiDup.time - planetFix1.msgClock.step - Clock.startIdx 2 k) / 2 ^ k
              + planetFix1.msgClock.cursor k) % 2)).count x) ∧
        (Planet.annihilate 2 2 planetFix1 antiDup).msgClock.step = planetFix1.msgClock.step ∧
        (Planet.annihilate 2 2 planetFix1 antiDup).msgClock.currentIdxs =
          planetFix1.msgClock.currentIdxs) :=
  annihilate_removes_every_match 2 2 planetFix1 antiDup (by decide) (by decide)
    (by decide) (by decide)

end ClaimC6

section ClaimC2

/-- Clock::insert never changes the step or the cursors. -/
theorem insert_step_cursors {T : Type} [Scheduleable T] (S H : ℕ) (c : Clock T)
    (e : T) : (Clock.insert S H c e).1.step = c.step ∧
      (Clock.insert S H c e).1.currentIdxs = c.currentIdxs := by
  unfold Clock.insert
  rcases insertLoop_spec S H (u64Sub (Scheduleable.time e) c.step) e
      (List.range H) c with h | ⟨k, off, _, _, _, h⟩ <;> rw [h] <;> exact ⟨rfl, rfl⟩

/-- Redistributing a batch of items through insert never changes the step. -/
theorem foldInsert_step {T : Type} [Scheduleable T] (S H : ℕ) (l : List T) :
    ∀ (c : Clock T) (of : List T),
      ((l.foldl
        (fun (acc : Clock T × List T) e =>
          match Clock.insert S H acc.1 e with
          | (c2, none) => (c2, acc.2)
          | (c2, some e2) => (c2, acc.2 ++ [e2]))
        (c, of)).1).step = c.step := by
  induction l with
  | nil => intro c of; rfl
  | cons e rest ih =>
    intro c of
    simp only [List.foldl_cons]
    rcases hins : Clock.insert S H c e with ⟨c2, mo⟩
    have hstep : c2.step = c.step := by
      have h := (insert_step_cursors S H c e).1
      rw [hins] at h
      exact h
    rcases mo with _ | e2
    · rw [ih c2 of, hstep]
    · rw [ih c2 (of ++ [e2]), hstep]

/-- The modelled wheel rollback leaves the wheel at the target step. -/
theorem clockRollbackSpec_step {T : Type} [Scheduleable T] (S H : ℕ)
    (dropLocal : Bool) (c : Clock T) (of : List T) (t : ℕ) :
    (clockRollbackSpec S H dropLocal c of t).1.step = t := by
  unfold clockRollbackSpec
  simp only
  rw [foldInsert_step]

/-- The level scan of annihilation never changes the step or the cursors. -/
theorem annihilateLoop_state {T : Type} (S H diff : ℕ) (anti : AntiMsg) :
    ∀ (ks : List ℕ) (c c2 : Clock (Msg T)),
      Planet.annihilateLoop S H diff anti c ks = some c2 →
      c2.step = c.step ∧ c2.currentIdxs = c.currentIdxs := by
  intro ks
  induction ks with
  | nil => intro c c2 h; exact absurd h (by simp [Planet.annihilateLoop])
  | cons k rest ih =>
    intro c c2 h
    unfold Planet.annihilateLoop at h
    by_cases h1 : diff ≥ Clock.startIdx S k
    · rw [if_pos h1] at h
      by_cases h2 : diff ≥ (S ^ (1 + H) - S) / (S - 1)
      · rw [if_pos h2] at h
        exact absurd h (by simp)
      · rw [if_neg h2] at h
        by_cases h3 : diff > Clock.endIdx S k
        · rw [if_pos h3] at h
          exact ih c c2 h
        · rw [if_neg h3] at h
          injection h with h
          subst h
          exact ⟨rfl, rfl⟩
    · rw [if_neg h1] at h
      exact ih c c2 h

/-- Annihilation never changes the wheel step. -/
theorem annihilateSys_step {T : Type} [DecidableEq T] (S H : ℕ)
    (sys : Clock (Msg T) × List (Msg T)) (anti : AntiMsg) :
    (Planet.annihilateSys S H sys anti).1.step = sys.1.step := by
  unfold Planet.annihilateSys
  simp only
  rcases hloop : Planet.annihilateLoop S H (u64Sub anti.time sys.1.step) anti
      sys.1 (List.range H) with _ | c2
  · rfl
  · exact (annihilateLoop_state S H _ anti (List.range H) sys.1 c2 hloop).1

/-- A batch of local annihilations never changes the wheel step. -/
theorem annihilateSysFold_step {T : Type} [DecidableEq T] (S H : ℕ)
    (l : List AntiMsg) : ∀ (sys : Clock (Msg T) × List (Msg T)),
      ((l.foldl (Planet.annihilateSys S H) sys).1).step = sys.1.step := by
  induction l with
  | nil => intro sys; rfl
  | cons a rest ih =>
    intro sys
    simp only [List.foldl_cons]
    rw [ih (Planet.annihilateSys S H sys a), annihilateSys_step]

/-- The reclamation loop dispatches exactly the entries addressed away
from this world (in journal order), locally annihilates exactly the
self-addressed anti-message transfers against the mail system, and leaves
every other planet field alone. -/
theorem reclaim_fold_spec {T σ : Type} [DecidableEq T] (S H : ℕ)
    (entries : List (Mail T × ℕ)) : ∀ (q : Planet T σ),
      (entries.foldl (Planet.reclaimAnti S H) q).outbox =
        q.outbox ++ ((entries.map Prod.fst).filter
          (fun mail => !(mail.to_world == some q.worldId))) ∧
      ((entries.foldl (Planet.reclaimAnti S H) q).msgClock,
        (entries.foldl (Planet.reclaimAnti S H) q).msgOverflow) =
        (Planet.selfAntis entries q.worldId).foldl (Planet.annihilateSys S H)
          (q.msgClock, q.msgOverflow) ∧
      (entries.foldl (Planet.reclaimAnti S H) q).worldId = q.worldId ∧
      (entries.foldl (Planet.reclaimAnti S H) q).evtClock = q.evtClock ∧
      (entries.foldl (Planet.reclaimAnti S H) q).evtOverflow = q.evtOverflow ∧
      (entries.foldl (Planet.reclaimAnti S H) q).worldState = q.worldState ∧
      (entries.foldl (Planet.reclaimAnti S H) q).agentStates = q.agentStates ∧
      (entries.foldl (Planet.reclaimAnti S H) q).antiMsgs = q.antiMsgs ∧
      (entries.foldl (Planet.reclaimAnti S H) q).lvt = q.lvt := by
  induction entries with
  | nil =>
    intro q
    simp [Planet.selfAntis]
  | cons e rest ih =>
    intro q
    obtain ⟨⟨tr, tw, fw⟩, stamp⟩ := e
    simp only [List.foldl_cons, List.map_cons]
    rcases tw with _ | w
    · obtain ⟨h1, h2, h3, h4, h5, h6, h7, h8, h9⟩ :=
        ih ({ q with outbox := q.outbox ++ [⟨tr, none, fw⟩] } : Planet T σ)
      have hre : Planet.reclaimAnti S H q (⟨tr, none, fw⟩, stamp) =
          { q with outbox := q.outbox ++ [(⟨tr, none, fw⟩ : Mail T)] } := rfl
      rw [hre]
      have hsa : Planet.selfAntis ((⟨tr, none, fw⟩, stamp) :: rest) q.worldId =
          Planet.selfAntis rest q.worldId := by
        unfold Planet.selfAntis
        rw [List.filterMap_cons]
      refine ⟨?_, ?_, h3, h4, h5, h6, h7, h8, h9⟩
      · rw [h1]
        simp only [List.filter_cons]
        simp only [show ((!((⟨tr, none, fw⟩ : Mail T).to_world == some q.worldId)) = true)
          from by simp, if_pos]
        rw [List.append_assoc]
        rfl
      · rw [hsa]
        exact h2
    · by_cases hwq : w = q.worldId
      · rcases tr with m | a
        · have hre : Planet.reclaimAnti S H q (⟨Transfer.Msg m, some w, fw⟩, stamp) = q := by
            simp only [Planet.reclaimAnti, Mail.open_letter]
            rw [if_pos hwq]
          rw [hre]
          obtain ⟨h1, h2, h3, h4, h5, h6, h7, h8, h9⟩ := ih q
          refine ⟨?_, ?_, h3, h4, h5, h6, h7, h8, h9⟩
          · rw [h1]
            simp only [List.filter_cons]
            have hpred : (!((⟨Transfer.Msg m, some w, fw⟩ : Mail T).to_world
                == some q.worldId)) = false := by
              simp [hwq]
            rw [hpred]
            simp
          · rw [h2]
            have hsa : Planet.selfAntis ((⟨Transfer.Msg m, some w, fw⟩, stamp) :: rest)
                q.worldId = Planet.selfAntis rest q.worldId := by
              unfold Planet.selfAntis
              rw [List.filterMap_cons]
              rfl
            rw [hsa]
        · have hre : Planet.reclaimAnti S H q (⟨Transfer.AntiMsg a, some w, fw⟩, stamp) =
              Planet.annihilate S H q a := by
            simp only [Planet.reclaimAnti, Mail.open_letter]
            rw [if_pos hwq]
          rw [hre]
          obtain ⟨h1, h2, h3, h4, h5, h6, h7, h8, h9⟩ := ih (Planet.annihilate S H q a)
          have hwid : (Planet.annihilate S H q a).worldId = q.worldId := rfl
          have hob : (Planet.annihilate S H q a).outbox = q.outbox := rfl
          refine ⟨?_, ?_, by rw [h3, hwid], by rw [h4]; rfl, by rw [h5]; rfl,
            by rw [h6]; rfl, by rw [h7]; rfl, by rw [h8]; rfl, by rw [h9]; rfl⟩
          · rw [h1, hwid, hob]
            simp only [List.filter_cons]
            have hpred : (!((⟨Transfer.AntiMsg a, some w, fw⟩ : Mail T).to_world
                == some q.worldId)) = false := by
              simp [hwq]
            rw [hpred]
            simp
          · rw [h2, hwid]
            have hsa : Planet.selfAntis ((⟨Transfer.AntiMsg a, some w, fw⟩, stamp) :: rest)
                q.worldId = a :: Planet.selfAntis rest q.worldId := by
              unfold Planet.selfAntis
              rw [List.filterMap_cons]
              simp [Mail.open_letter, hwq]
            rw [hsa]
            simp only [List.foldl_cons]
            rfl
      · have hre : Planet.reclaimAnti S H q (⟨tr, some w, fw⟩, stamp) =
            { q with outbox := q.outbox ++ [(⟨tr, some w, fw⟩ : Mail T)] } := by
          simp only [Planet.reclaimAnti]
          rw [if_neg hwq]
        rw [hre]
        obtain ⟨h1, h2, h3, h4, h5, h6, h7, h8, h9⟩ :=
          ih ({ q with outbox := q.outbox ++ [(⟨tr, some w, fw⟩ : Mail T)] } : Planet T σ)
        have hsa : Planet.selfAntis ((⟨tr, some w, fw⟩, stamp) :: rest) q.worldId =
            Planet.selfAntis rest q.worldId := by
          unfold Planet.selfAntis
          rw [List.filterMap_cons]
          cases tr with
          | Msg m => rfl
          | AntiMsg a =>
            simp only [Mail.open_letter]
            rw [if_neg hwq]
        refine ⟨?_, ?_, h3, h4, h5, h6, h7, h8, h9⟩
        · rw [h1]
          simp only [List.filter_cons]
          have hpred : (!((⟨tr, some w, fw⟩ : Mail T).to_world == some q.worldId)) = true := by
            simpa using hwq
          rw [hpred]
          simp only [if_pos]
          rw [List.append_assoc]
          rfl
        · rw [hsa]
          exact h2

/-- C2: the rollback contract of Planet::rollback. A target after the
local clock fails with TimeTravel and leaves the planet untouched;
otherwise the world journal and every agent journal roll back to the
target, the journaled anti-messages stamped after the target are
reclaimed: each one addressed away from this world (including broadcast)
is dispatched through the inter-world endpoint in journal order, each
anti-message transfer addressed to the planet itself is annihilated
locally against the rolled message system, both wheels are rolled back to
the target (event wheel dropping items committed after it), and finally
the LVT is set to the target. -/
theorem rollback_contract {T σ : Type} [DecidableEq T] (S H : ℕ)
    (p : Planet T σ) (t : ℕ) :
    (p.evtClock.step < t → Planet.rollback S H p t = (.error .TimeTravel, p)) ∧
    (t ≤ p.evtClock.step →
      (Planet.rollback S H p t).1 = .ok () ∧
      (Planet.rollback S H p t).2.lvt = t ∧
      (Planet.rollback S H p t).2.worldState = p.worldState.rollback t ∧
      (Planet.rollback S H p t).2.agentStates =
        p.agentStates.map (fun j => j.rollback t) ∧
      (Planet.rollback S H p t).2.antiMsgs = (p.antiMsgs.rollback_return t).1 ∧
      (Planet.rollback S H p t).2.outbox =
        p.outbox ++ (((p.antiMsgs.rollback_return t).2.map Prod.fst).filter
          (fun mail => !(mail.to_world == some p.worldId))) ∧
      ((Planet.rollback S H p t).2.msgClock, (Planet.rollback S H p t).2.msgOverflow) =
        (Planet.selfAntis (p.antiMsgs.rollback_return t).2 p.worldId).foldl
          (Planet.annihilateSys S H)
          (clockRollbackSpec S H false p.msgClock p.msgOverflow t) ∧
      ((Planet.rollback S H p t).2.evtClock, (Planet.rollback S H p t).2.evtOverflow) =
        clockRollbackSpec S H true p.evtClock p.evtOverflow t ∧
      (Planet.rollback S H p t).2.evtClock.step = t ∧
      (Planet.rollback S H p t).2.msgClock.step = t ∧
      (Planet.rollback S H p t).2.worldId = p.worldId) := by
  constructor
  · intro hlt
    unfold Planet.rollback
    rw [if_pos hlt]
  · intro hle
    unfold Planet.rollback
    rw [if_neg (by omega)]
    simp only
    obtain ⟨h1, h2, h3, h4, h5, h6, h7, h8, h9⟩ :=
      reclaim_fold_spec S H (p.antiMsgs.rollback_return t).2
        ({ p with
            worldState := p.worldState.rollback t
            agentStates := p.agentStates.map (fun j => j.rollback t)
            msgClock := (clockRollbackSpec S H false p.msgClock p.msgOverflow t).1
            msgOverflow := (clockRollbackSpec S H false p.msgClock p.msgOverflow t).2
            antiMsgs := (p.antiMsgs.rollback_return t).1 } : Planet T σ)
    refine ⟨by trivial, by trivial, by rw [h6], by rw [h7], by rw [h8], by rw [h1], ?_, ?_, ?_, ?_, by rw [h3]⟩
    · rw [h2]
    · rw [h4, h5]
    · exact clockRollbackSpec_step S H true _ _ t
    · have := h2
      have hms : (((p.antiMsgs.rollback_return t).2.foldl (Planet.reclaimAnti S H)
          _).msgClock).step = _ := congrArg (fun sys => sys.1.step) h2
      rw [hms, annihilateSysFold_step]
      exact clockRollbackSpec_step S H false _ _ t

/-- Instantiation of the C2 theorem at the fixture planet (local time 5,
three journaled anti-messages) rolling back to time 3: the call succeeds,
sets LVT 3, keeps only the journal entry stamped at or before 3, and
dispatches exactly the after-3 envelope addressed to world 1. -/
theorem rollback_contract_witness :
    (Planet.rollback 2 2 planetFix2 3).1 = .ok () ∧
    (Planet.rollback 2 2 planetFix2 3).2.lvt = 3 ∧
    (Planet.rollback 2 2 planetFix2 3).2.antiMsgs = ⟨[(mailOther, 2)]⟩ ∧
    (Planet.rollback 2 2 planetFix2 3).2.outbox = [mailOther] := by
  obtain ⟨h1, h2, _, _, h5, h6, _, _, _, _, _⟩ :=
    (rollback_contract 2 2 planetFix2 3).2 (by decide)
  refine ⟨h1, h2, ?_, ?_⟩
  · rw [h5]; decide
  · rw [h6]; decide

end ClaimC2

section ClaimC3

/-- A failed statistics fold stays failed. -/
theorem statsStep_error_fold (c : ℕ) (l : List (Option Block)) (e : SimError) :
    l.foldl (Galaxy.statsStep c) (.error e) = .error e := by
  induction l with
  | nil => rfl
  | cons ob rest ih => simpa [Galaxy.statsStep] using ih

/-- A successful statistics fold accumulates exactly the total sends and
recvs of the reported blocks. -/
theorem statsStep_fold_sums (c : ℕ) :
    ∀ (l : List (Option Block)) (acc st : Galaxy.NextStats),
      l.foldl (Galaxy.statsStep c) (.ok acc) = .ok st →
      st.sends = acc.sends + ((l.filterMap id).map Block.sends).sum ∧
      st.recvs = acc.recvs + ((l.filterMap id).map Block.recvs).sum := by
  intro l
  induction l with
  | nil =>
    intro acc st h
    injection h with h
    subst h
    simp
  | cons ob rest ih =>
    intro acc st h
    rcases ob with _ | b
    · rw [List.foldl_cons] at h
      have hstep : Galaxy.statsStep c (.ok acc) none = .ok acc := rfl
      rw [hstep] at h
      obtain ⟨h1, h2⟩ := ih acc st h
      simpa using ⟨h1, h2⟩
    · rw [List.foldl_cons] at h
      simp only [Galaxy.statsStep] at h
      have hfm : List.filterMap id (some b :: rest) = b :: List.filterMap id rest := rfl
      split at h
      · split at h
        · rw [statsStep_error_fold] at h
          exact absurd h (by simp)
        · obtain ⟨h1, h2⟩ := ih _ st h
          simp only at h1 h2
          constructor
          · rw [h1, hfm, List.map_cons, List.sum_cons]
            omega
          · rw [h2, hfm, List.map_cons, List.sum_cons]
            omega
      · split at h
        · rw [statsStep_error_fold] at h
          exact absurd h (by simp)
        · obtain ⟨h1, h2⟩ := ih _ st h
          simp only at h1 h2
          constructor
          · rw [h1, hfm, List.map_cons, List.sum_cons]
            omega
          · rw [h2, hfm, List.map_cons, List.sum_cons]
            omega

/-- For counter-sized operands the wrapping u64 subtraction is zero
exactly on equality. -/
theorem u64Sub_eq_zero (a b : ℕ) (ha : a < 2 ^ 63) (hb : b < 2 ^ 63)
    (h : u64Sub a b = 0) : a = b := by
  unfold u64Sub U64 at h
  split_ifs at h <;> omega

/-- For counter-sized operands a vanishing double wrap
u64Sub (u64Sub s r) late = 0 forces s = r + late. -/
theorem u64Sub_chain_eq_zero (s r late : ℕ) (hs : s < 2 ^ 63) (hr : r < 2 ^ 63)
    (hl : late < 2 ^ 63) (h : u64Sub (u64Sub s r) late = 0) : s = r + late := by
  unfold u64Sub U64 at h
  split_ifs at h <;> omega


/-- A successful commit_block publishes the window end as the GVT, shifts
every pending ring left and leaves the broadcast log alone. -/
theorem commit_block_ok (g : Galaxy) (start stop sends recvs : ℕ)
    (rfp : List ℕ) (u : Unit) (gc : Galaxy)
    (h : Galaxy.commit_block g start stop sends recvs rfp = (.ok u, gc)) :
    gc.gvt = stop ∧ gc.pending = g.pending.map (fun row => row.drop 1 ++ [none]) ∧
      gc.broadcasts = g.broadcasts := by
  unfold Galaxy.commit_block at h
  split at h
  · simp at h
  · simp only at h
    split at h
    · simp at h
    · obtain ⟨-, h2⟩ := Prod.mk.injEq .. ▸ h
      subst h2
      exact ⟨rfl, rfl, rfl⟩

/-- commit_block can only fail with TimeTravel. -/
theorem commit_block_error (g : Galaxy) (start stop sends recvs : ℕ)
    (rfp : List ℕ) (e : SimError) (gc : Galaxy)
    (h : Galaxy.commit_block g start stop sends recvs rfp = (.error e, gc)) :
    e = .TimeTravel := by
  unfold Galaxy.commit_block at h
  split at h
  · obtain ⟨h1, -⟩ := Prod.mk.injEq .. ▸ h
    injection h1 with h1
    exact h1.symm
  · simp only at h
    split at h
    · obtain ⟨h1, -⟩ := Prod.mk.injEq .. ▸ h
      injection h1 with h1
      exact h1.symm
    · simp at h

/-- C3 (amended): the block-variant coordinator commits the next block -
returning its end time, writing it as the GVT and shifting every pending
ring left - exactly through the two code paths: every world has reported
a next block, the boundary check passes (it errors only when a reported
block differs from the first captured block in BOTH start and end, so a
block differing in just one boundary is accepted), and either the next
blocks account for themselves (total sends = total recvs) with the end
past the current GVT, or the sends unmatched within the next blocks are
exactly covered by the receives that later pending blocks recorded
against earlier blocks. When no block is committed the GVT, the next row
and the pending rings are unchanged; a boundary-mismatch error leaves the
GVT unchanged. On a commit the master loop broadcasts the new GVT. -/
theorem update_consensus_commit_conditions (BS : ℕ) (g : Galaxy)
    (hsends : Galaxy.listSends g < 2 ^ 63) (hrecvs : Galaxy.listRecvs g < 2 ^ 63)
    (hlate : Galaxy.lateRecvs g.pending < 2 ^ 63) :
    (∀ e g2, Galaxy.update_consensus BS g = (.ok (some e), g2) →
      (∀ b ∈ g.next, b.isSome) ∧
      g2.gvt = e ∧
      g2.pending = g.pending.map (fun row => row.drop 1 ++ [none]) ∧
      g2.broadcasts = g.broadcasts ∧
      ((Galaxy.listSends g = Galaxy.listRecvs g ∧ g.gvt < e) ∨
        Galaxy.listSends g = Galaxy.listRecvs g + Galaxy.lateRecvs g.pending)) ∧
    (∀ g2, Galaxy.update_consensus BS g = (.ok none, g2) →
      g2.gvt = g.gvt ∧ g2.next = g.next ∧ g2.pending = g.pending) ∧
    (∀ err g2, Galaxy.update_consensus BS g = (.error err, g2) →
      ∀ c a b, err = .MismatchBlockTimeStamps c a b → g2.gvt = g.gvt) ∧
    (∀ e g3, Galaxy.masterConsensus BS g = (.ok (some e), g3) →
      g3.gvt = e ∧ g3.broadcasts = g.broadcasts ++ [e]) := by
  have hsome : ∀ e g2, Galaxy.update_consensus BS g = (.ok (some e), g2) →
      (∀ b ∈ g.next, b.isSome) ∧ g2.gvt = e ∧
      g2.pending = g.pending.map (fun row => row.drop 1 ++ [none]) ∧
      g2.broadcasts = g.broadcasts ∧
      ((Galaxy.listSends g = Galaxy.listRecvs g ∧ g.gvt < e) ∨
        Galaxy.listSends g = Galaxy.listRecvs g + Galaxy.lateRecvs g.pending) := by
    intro e g2 hupd
    unfold Galaxy.update_consensus at hupd
    split at hupd
    case isFalse => simp at hupd
    case isTrue hall =>
      have hallmem : ∀ b ∈ g.next, b.isSome := List.all_eq_true.mp hall
      simp only at hupd
      split at hupd
      case h_1 => simp at hupd
      case h_2 st hfold =>
        obtain ⟨hsums, hrecv⟩ := statsStep_fold_sums g.block_counter g.next _ st hfold
        simp only [Nat.zero_add] at hsums hrecv
        split at hupd
        case isTrue hc1 =>
          rw [Bool.and_eq_true] at hc1
          have hz : u64Sub st.sends st.recvs = 0 := by
            have := hc1.1
            simpa using this
          have hlt : g.gvt < st.stop := of_decide_eq_true hc1.2
          split at hupd
          case h_1 u gc hcb =>
            obtain ⟨h1, h2⟩ := Prod.mk.injEq .. ▸ hupd
            injection h1 with h1
            injection h1 with h1
            subst h1
            subst h2
            obtain ⟨hg1, hg2, hg3⟩ := commit_block_ok _ _ _ _ _ _ _ _ hcb
            refine ⟨hallmem, hg1, hg2, hg3, Or.inl ⟨?_, hlt⟩⟩
            have heq : st.sends = st.recvs :=
              u64Sub_eq_zero _ _ (by rw [hsums]; exact hsends)
                (by rw [hrecv]; exact hrecvs) hz
            have hls : Galaxy.listSends g = st.sends := hsums.symm
            have hlr : Galaxy.listRecvs g = st.recvs := hrecv.symm
            rw [hls, hlr]
            exact heq
          case h_2 e2 gc hcb => simp at hupd
        case isFalse hc1 =>
          split at hupd
          case isTrue hc2 =>
            split at hupd
            case h_1 u gc hcb =>
              obtain ⟨h1, h2⟩ := Prod.mk.injEq .. ▸ hupd
              injection h1 with h1
              injection h1 with h1
              subst h1
              subst h2
              obtain ⟨hg1, hg2, hg3⟩ := commit_block_ok _ _ _ _ _ _ _ _ hcb
              refine ⟨hallmem, hg1, hg2, hg3, Or.inr ?_⟩
              have hz2 : u64Sub (u64Sub st.sends st.recvs) (Galaxy.lateRecvs g.pending) = 0 := by
                simpa using hc2
              have heq := u64Sub_chain_eq_zero st.sends st.recvs (Galaxy.lateRecvs g.pending)
                (by rw [hsums]; exact hsends) (by rw [hrecv]; exact hrecvs) hlate hz2
              have hls : Galaxy.listSends g = st.sends := hsums.symm
              have hlr : Galaxy.listRecvs g = st.recvs := hrecv.symm
              rw [hls, hlr]
              exact heq
            case h_2 e2 gc hcb => simp at hupd
          case isFalse hc2 => simp at hupd
  refine ⟨hsome, ?_, ?_, ?_⟩
  · intro g2 hupd
    unfold Galaxy.update_consensus at hupd
    split at hupd
    case isFalse =>
      obtain ⟨-, h2⟩ := Prod.mk.injEq .. ▸ hupd
      subst h2
      exact ⟨rfl, rfl, rfl⟩
    case isTrue hall =>
      simp only at hupd
      split at hupd
      case h_1 => simp at hupd
      case h_2 st hfold =>
        split at hupd
        case isTrue hc1 =>
          split at hupd
          case h_1 u gc hcb => simp at hupd
          case h_2 e2 gc hcb => simp at hupd
        case isFalse hc1 =>
          split at hupd
          case isTrue hc2 =>
            split at hupd
            case h_1 u gc hcb => simp at hupd
            case h_2 e2 gc hcb => simp at hupd
          case isFalse hc2 =>
            obtain ⟨-, h2⟩ := Prod.mk.injEq .. ▸ hupd
            subst h2
            exact ⟨rfl, rfl, rfl⟩
  · intro err g2 hupd c a b herr
    subst herr
    unfold Galaxy.update_consensus at hupd
    split at hupd
    case isFalse => simp at hupd
    case isTrue hall =>
      simp only at hupd
      split at hupd
      case h_1 e2 hfold =>
        obtain ⟨-, h2⟩ := Prod.mk.injEq .. ▸ hupd
        subst h2
        rfl
      case h_2 st hfold =>
        split at hupd
        case isTrue hc1 =>
          split at hupd
          case h_1 u gc hcb => simp at hupd
          case h_2 e2 gc hcb =>
            obtain ⟨h1, -⟩ := Prod.mk.injEq .. ▸ hupd
            injection h1 with h1
            have := commit_block_error _ _ _ _ _ _ _ _ hcb
            rw [h1] at this
            cases this
        case isFalse hc1 =>
          split at hupd
          case isTrue hc2 =>
            split at hupd
            case h_1 u gc hcb => simp at hupd
            case h_2 e2 gc hcb =>
              obtain ⟨h1, -⟩ := Prod.mk.injEq .. ▸ hupd
              injection h1 with h1
              have := commit_block_error _ _ _ _ _ _ _ _ hcb
              rw [h1] at this
              cases this
          case isFalse hc2 => simp at hupd
  · intro e g3 hm
    unfold Galaxy.masterConsensus at hm
    split at hm
    case h_1 e2 g2 hupd =>
      obtain ⟨h1, h2⟩ := Prod.mk.injEq .. ▸ hm
      injection h1 with h1
      injection h1 with h1
      subst h2
      obtain ⟨-, hg1, -, hg3, -⟩ := hsome e2 g2 hupd
      refine ⟨?_, ?_⟩
      · show g2.gvt = e
        rw [hg1]
        exact h1
      · show g2.broadcasts ++ [e2] = g.broadcasts ++ [e]
        rw [hg3, h1]
    case h_2 hne =>
      exact absurd hm (hne e g3)

/-- Counterexample to C3 as stated: two worlds report next blocks whose
start boundaries agree (both 1) but whose end boundaries differ (16
versus 17); the boundary check - which errors only when BOTH boundaries
differ - lets it through, and with zero sends and recvs the block is
committed and the GVT advances to 16, even though the claim requires
matching start AND end boundaries for any commit. -/
theorem block_consensus_mismatched_end_commits :
    (galaxyFixMismatch.next.getD 0 none).isSome ∧
    (galaxyFixMismatch.next.getD 1 none).isSome ∧
    ((galaxyFixMismatch.next.getD 0 none).map Block.start =
      (galaxyFixMismatch.next.getD 1 none).map Block.start) ∧
    ((galaxyFixMismatch.next.getD 0 none).map Block.stop ≠
      (galaxyFixMismatch.next.getD 1 none).map Block.stop) ∧
    (Galaxy.update_consensus 1 galaxyFixMismatch).1 = .ok (some 16) ∧
    (Galaxy.update_consensus 1 galaxyFixMismatch).2.gvt = 16 := by
  refine ⟨by decide, by decide, by decide, by decide, by rfl, by rfl⟩

/-- Instantiation of the amended C3 theorem at the aligned one-planet
fixture (counter bounds discharged by computation). -/
theorem update_consensus_commit_conditions_witness :
    (∀ e g2, Galaxy.update_consensus 2 galaxyFixAligned = (.ok (some e), g2) →
      (∀ b ∈ galaxyFixAligned.next, b.isSome) ∧
      g2.gvt = e ∧
      g2.pending = galaxyFixAligned.pending.map (fun row => row.drop 1 ++ [none]) ∧
      g2.broadcasts = galaxyFixAligned.broadcasts ∧
      ((Galaxy.listSends galaxyFixAligned = Galaxy.listRecvs galaxyFixAligned ∧
          galaxyFixAligned.gvt < e) ∨
        Galaxy.listSends galaxyFixAligned = Galaxy.listRecvs galaxyFixAligned +
          Galaxy.lateRecvs galaxyFixAligned.pending)) ∧
    (∀ g2, Galaxy.update_consensus 2 galaxyFixAligned = (.ok none, g2) →
      g2.gvt = galaxyFixAligned.gvt ∧ g2.next = galaxyFixAligned.next ∧
      g2.pending = galaxyFixAligned.pending) ∧
    (∀ err g2, Galaxy.update_consensus 2 galaxyFixAligned = (.error err, g2) →
      ∀ c a b, err = .MismatchBlockTimeStamps c a b → g2.gvt = galaxyFixAligned.gvt) ∧
    (∀ e g3, Galaxy.masterConsensus 2 galaxyFixAligned = (.ok (some e), g3) →
      g3.gvt = e ∧ g3.broadcasts = galaxyFixAligned.broadcasts ++ [e]) :=
  update_consensus_commit_conditions 2 galaxyFixAligned (by decide) (by decide) (by decide)

end ClaimC3

section ClaimC4

/-- getD after set, in all cases. -/
theorem getD_set_list_cases {α : Type} (l : List α) (n j : ℕ) (v d : α) :
    (l.set n v).getD j d = if j = n ∧ n < l.length then v else l.getD j d := by
  by_cases hj : j = n
  · subst hj
    by_cases hn : j < l.length
    · rw [getD_set_self_list _ _ _ _ hn, if_pos ⟨rfl, hn⟩]
    · rw [List.set_eq_of_length_le (by omega), if_neg (by omega)]
  · rw [getD_set_ne_list _ _ _ _ _ (fun h => hj h.symm), if_neg (by tauto)]

/-- Reading position j of a left-shifted ring reads position j + 1 of the
original ring. -/
theorem getD_shift_ring {α : Type} (row : List (Option α)) (j : ℕ) (blk : α)
    (h : (row.drop 1 ++ [none]).getD j none = some blk) :
    row.getD (j + 1) none = some blk := by
  rw [List.getD_eq_getElem?_getD] at h
  rw [List.getD_eq_getElem?_getD]
  by_cases hj : j < (row.drop 1).length
  · rw [List.getElem?_append_left hj, List.getElem?_drop] at h
    rw [Nat.add_comm 1 j] at h
    exact h
  · exfalso
    rw [List.getElem?_append_right (by omega)] at h
    rcases hc : j - (row.drop 1).length with _ | k
    · rw [hc] at h
      simp at h
    · rw [hc] at h
      simp at h

/-- Placing one well-formed future block preserves the coordinator
invariant and the GVT. -/
theorem placeBlock_inv (w BS : ℕ) (g : Galaxy) (i : ℕ) (b : Block)
    (hinv : GalaxyInv w g) (hwf : BlockWF w b) (hgt : g.gvt < b.start) :
    GalaxyInv w (Galaxy.placeBlock BS g i b).2 ∧
    (Galaxy.placeBlock BS g i b).2.gvt = g.gvt := by
  obtain ⟨hw2, hbs, hmod, hnext, hpend⟩ := hinv
  obtain ⟨hstop, hsmod⟩ := hwf
  unfold Galaxy.placeBlock
  by_cases hfirst : b.start == g.gvt + 1
  · rw [if_pos hfirst]
    have hsg : b.start = g.gvt + 1 := by simpa using hfirst
    refine ⟨⟨hw2, hbs, hmod, ?_, hpend⟩, rfl⟩
    intro ob hob blk hblk
    simp only at hob
    rcases List.mem_or_eq_of_mem_set hob with hmem | hv
    · exact hnext ob hmem blk hblk
    · rw [hv] at hblk
      injection hblk with hblk
      subst hblk
      refine ⟨hsg, ?_⟩
      show b.stop = g.gvt + w
      omega
  · rw [if_neg hfirst]
    have hne : b.start ≠ g.gvt + 1 := by simpa using hfirst
    obtain ⟨q1, hq1⟩ : w ∣ g.gvt := Nat.dvd_of_mod_eq_zero hmod
    have hdm : w * (b.start / w) + 1 = b.start := by
      have := Nat.div_add_mod b.start w
      omega
    set q2 := b.start / w with hq2def
    have hq21 : q1 < q2 := by
      by_contra hq
      push_neg at hq
      have hle : w * q2 ≤ w * q1 := Nat.mul_le_mul_left w hq
      omega
    set m := q2 - q1 with hmdef
    have hm1 : 1 ≤ m := by omega
    have hq2e : q2 = q1 + m := by omega
    have hmul : w * q2 = w * q1 + w * m := by rw [hq2e, Nat.mul_add]
    have hdecomp : b.start - g.gvt = w * m + 1 := by omega
    have hdiv : (w * m + 1) / w = m := by
      rw [Nat.mul_add_div (by omega)]
      have h1w : (1 : ℕ) / w = 0 := Nat.div_eq_of_lt (by omega)
      omega
    have husub : u64Sub b.start g.gvt = b.start - g.gvt := by
      unfold u64Sub
      rw [if_pos (by omega)]
    simp only
    rw [husub, hbs, hdecomp, hdiv]
    by_cases hBS : m - 1 ≥ BS
    · rw [if_pos hBS]
      exact ⟨⟨hw2, hbs, hmod, hnext, hpend⟩, rfl⟩
    · rw [if_neg hBS]
      refine ⟨⟨hw2, by rfl, hmod, hnext, ?_⟩, rfl⟩
      intro row hrow j blk hblk
      simp only at hrow
      rcases List.mem_or_eq_of_mem_set hrow with hmem | hv
      · exact hpend row hmem j blk hblk
      · subst hv
        rw [getD_set_list_cases] at hblk
        split at hblk
        · rename_i hcond
          injection hblk with hblk
          subst hblk
          obtain ⟨hj, -⟩ := hcond
          subst hj
          have hmm : (m - 1 + 1) = m := by omega
          have hc1 : (m - 1 + 1) * w = w * m := by rw [hmm, Nat.mul_comm]
          have hc2 : (m - 1 + 2) * w = w * m + w := by
            have : m - 1 + 2 = m + 1 := by omega
            rw [this, Nat.add_mul, Nat.mul_comm]
            omega
          constructor
          · show b.start = g.gvt + (m - 1 + 1) * w + 1
            omega
          · show b.stop = g.gvt + (m - 1 + 2) * w
            omega
        · rename_i hcond
          by_cases hi : i < g.pending.length
          · have hmem2 : g.pending.getD i [] ∈ g.pending := by
              rw [List.getD_eq_getElem?_getD, List.getElem?_eq_getElem hi]
              exact List.getElem_mem ..
            exact hpend _ hmem2 j blk hblk
          · have hrow0 : g.pending.getD i [] = [] := by
              rw [List.getD_eq_getElem?_getD, List.getElem?_eq_none (by omega)]
              rfl
            rw [hrow0] at hblk
            simp at hblk

/-- headD is getD at index zero. -/
theorem headD_eq_getD_zero {α : Type} (l : List α) (d : α) :
    l.headD d = l.getD 0 d := by
  cases l <;> rfl

/-- The statistics step on the initial accumulator captures the first
block's boundaries. -/
theorem statsStep_first (c BS : ℕ) (b : Block) :
    Galaxy.statsStep c
      (.ok { sends := 0, recvs := 0, start := 0, stop := 0,
             rfp := List.replicate BS 0 }) (some b) =
    .ok { sends := b.sends, recvs := b.recvs, start := b.start, stop := b.stop,
          rfp := Galaxy.zipAddKeep (List.replicate BS 0) b.recvs_from_previous } := by
  unfold Galaxy.statsStep
  simp [bne_self_eq_false]

/-- Once nonzero boundaries are captured, a successful statistics fold
over blocks sharing those boundaries keeps them. -/
theorem statsFold_keep (c a s : ℕ) (hs : s ≠ 0) (l : List (Option Block)) :
    ∀ st0 : Galaxy.NextStats,
      (∀ ob ∈ l, ∀ b, ob = some b → b.start = a ∧ b.stop = s) →
      st0.start = a → st0.stop = s →
      ∀ st, List.foldl (Galaxy.statsStep c) (.ok st0) l = .ok st →
        st.start = a ∧ st.stop = s := by
  induction l with
  | nil =>
    intro st0 hl h1 h2 st hf
    rw [List.foldl_nil] at hf
    injection hf with hf
    subst hf
    exact ⟨h1, h2⟩
  | cons ob rest ih =>
    intro st0 hl h1 h2 st hf
    rw [List.foldl_cons] at hf
    rcases ob with _ | b
    · rw [show Galaxy.statsStep c (.ok st0) none = .ok st0 from rfl] at hf
      exact ih st0 (fun x hx b2 hb2 => hl x (List.mem_cons_of_mem _ hx) b2 hb2) h1 h2 st hf
    · obtain ⟨hba, hbe⟩ := hl (some b) (List.mem_cons_self _ _) b rfl
      have hcap : (st0.start == st0.stop && st0.stop == 0) = false := by
        have h0 : (st0.stop == 0) = false := by
          rw [h2]
          exact beq_eq_false_iff_ne.mpr hs
        rw [h0, Bool.and_false]
      have hm : (st0.stop != b.stop) = false := by
        rw [h2, hbe]
        exact bne_self_eq_false _
      have hstep : Galaxy.statsStep c (.ok st0) (some b) =
          .ok { sends := st0.sends + b.sends, recvs := st0.recvs + b.recvs,
                start := st0.start, stop := st0.stop,
                rfp := Galaxy.zipAddKeep st0.rfp b.recvs_from_previous } := by
        unfold Galaxy.statsStep
        simp only [hcap, hm, Bool.false_eq_true, Bool.false_and, if_false]
      rw [hstep] at hf
      exact ih { sends := st0.sends + b.sends, recvs := st0.recvs + b.recvs,
                 start := st0.start, stop := st0.stop,
                 rfp := Galaxy.zipAddKeep st0.rfp b.recvs_from_previous }
        (fun x hx b2 hb2 => hl x (List.mem_cons_of_mem _ hx) b2 hb2) h1 h2 st hf

/-- Core of the commit invariant: after publishing gvt + w, the pulled
next row and the shifted pending rings describe the windows one block
further out. -/
theorem commit_inv_core (w : ℕ) (g : Galaxy) (stop : ℕ)
    (hw2 : 2 ≤ w) (hmod : g.gvt % w = 0)
    (hpend : ∀ row ∈ g.pending, ∀ j blk, row.getD j none = some blk →
      blk.start = g.gvt + (j + 1) * w + 1 ∧ blk.stop = g.gvt + (j + 2) * w)
    (hstop : stop = g.gvt + w) :
    stop % w = 0 ∧
    (∀ ob ∈ (List.range g.next.length).map
        (fun i => (g.pending.getD i []).headD none), ∀ blk, ob = some blk →
      blk.start = stop + 1 ∧ blk.stop = stop + w) ∧
    (∀ row ∈ g.pending.map (fun row => row.drop 1 ++ [none]), ∀ j blk,
      row.getD j none = some blk →
      blk.start = stop + (j + 1) * w + 1 ∧ blk.stop = stop + (j + 2) * w) := by
  refine ⟨?_, ?_, ?_⟩
  · rw [hstop, Nat.add_mod_right]
    exact hmod
  · intro ob hob blk hblk
    rw [List.mem_map] at hob
    obtain ⟨i, hi, hfi⟩ := hob
    rw [← hfi] at hblk
    rw [headD_eq_getD_zero] at hblk
    by_cases hlen : i < g.pending.length
    · have hmem : g.pending.getD i [] ∈ g.pending := by
        rw [List.getD_eq_getElem?_getD, List.getElem?_eq_getElem hlen]
        exact List.getElem_mem ..
      have hb := hpend _ hmem 0 blk hblk
      exact ⟨by omega, by omega⟩
    · have h0 : g.pending.getD i [] = [] := by
        rw [List.getD_eq_getElem?_getD, List.getElem?_eq_none (by omega)]
        rfl
      rw [h0] at hblk
      simp at hblk
  · intro row hrow j blk hblk
    rw [List.mem_map] at hrow
    obtain ⟨row0, hr0, hsh⟩ := hrow
    rw [← hsh] at hblk
    have hb := hpend row0 hr0 (j + 1) blk (getD_shift_ring _ _ _ hblk)
    have e1 : (j + 1 + 1) * w = (j + 1) * w + w := by ring
    have e2 : (j + 1 + 2) * w = (j + 1) * w + w + w := by ring
    have e3 : (j + 2) * w = (j + 1) * w + w := by ring
    exact ⟨by omega, by omega⟩

/-- Committing either the window right after the GVT or a degenerate
empty window preserves the coordinator invariant and never lowers the
GVT. -/
theorem commit_block_cases (w : ℕ) (g : Galaxy) (start stop sends recvs : ℕ)
    (rfp : List ℕ) (hinv : GalaxyInv w g)
    (hb : (start = g.gvt + 1 ∧ stop = g.gvt + w) ∨ stop ≤ start) :
    GalaxyInv w (Galaxy.commit_block g start stop sends recvs rfp).2 ∧
    g.gvt ≤ (Galaxy.commit_block g start stop sends recvs rfp).2.gvt := by
  obtain ⟨hw2, hbs, hmod, hnext, hpend⟩ := hinv
  unfold Galaxy.commit_block
  simp only
  rcases hb with ⟨hstart, hstop⟩ | hdeg
  · rw [if_neg (by omega)]
    have hcore := commit_inv_core w g stop hw2 hmod hpend hstop
    split
    · exact ⟨⟨hw2, hbs, hcore.1, hcore.2.1, hcore.2.2⟩, by show g.gvt ≤ stop; omega⟩
    · exact ⟨⟨hw2, hbs, hcore.1, hcore.2.1, hcore.2.2⟩, by show g.gvt ≤ stop; omega⟩
  · rw [if_pos hdeg]
    exact ⟨⟨hw2, hbs, hmod, hnext, hpend⟩, Nat.le_refl _⟩

/-- update_consensus preserves the coordinator invariant and never lowers
the stored GVT. -/
theorem update_consensus_inv (w BS : ℕ) (g : Galaxy) (hinv : GalaxyInv w g) :
    GalaxyInv w (Galaxy.update_consensus BS g).2 ∧
    g.gvt ≤ (Galaxy.update_consensus BS g).2.gvt := by
  obtain ⟨hw2, hbs, hmod, hnext, hpend⟩ := hinv
  unfold Galaxy.update_consensus
  split
  · rename_i hall
    simp only
    split
    · exact ⟨⟨hw2, hbs, hmod, hnext, hpend⟩, Nat.le_refl _⟩
    · rename_i st hfold
      have hbound : (st.start = g.gvt + 1 ∧ st.stop = g.gvt + w) ∨
          (st.start = 0 ∧ st.stop = 0) := by
        rcases hn : g.next with _ | ⟨ob, rest⟩
        · rw [hn, List.foldl_nil] at hfold
          injection hfold with hfold
          subst hfold
          exact Or.inr ⟨rfl, rfl⟩
        · have hob : ob.isSome = true := by
            have := List.all_eq_true.mp hall ob
            exact this (by rw [hn]; exact List.mem_cons_self _ _)
          rcases ob with _ | b0
          · simp at hob
          · obtain ⟨hb0s, hb0e⟩ :=
              hnext (some b0) (by rw [hn]; exact List.mem_cons_self _ _) b0 rfl
            rw [hn, List.foldl_cons, statsStep_first] at hfold
            exact Or.inl (statsFold_keep g.block_counter (g.gvt + 1) (g.gvt + w)
              (by omega) rest _
              (fun x hx b2 hb2 =>
                hnext x (by rw [hn]; exact List.mem_cons_of_mem _ hx) b2 hb2)
              hb0s hb0e st hfold)
      have hg1 : GalaxyInv w { g with unmatched_sends := u64Sub st.sends st.recvs } :=
        ⟨hw2, hbs, hmod, hnext, hpend⟩
      have hb2 : (st.start =
            ({ g with unmatched_sends := u64Sub st.sends st.recvs } : Galaxy).gvt + 1 ∧
          st.stop =
            ({ g with unmatched_sends := u64Sub st.sends st.recvs } : Galaxy).gvt + w) ∨
          st.stop ≤ st.start := by
        rcases hbound with ⟨h1, h2⟩ | ⟨h1, h2⟩
        · exact Or.inl ⟨h1, h2⟩
        · exact Or.inr (by omega)
      have hcc := commit_block_cases w _ st.start st.stop st.sends st.recvs st.rfp hg1 hb2
      split
      · split
        · rename_i u g2 heq
          rw [heq] at hcc
          exact ⟨hcc.1, hcc.2⟩
        · rename_i e2 g2 heq
          rw [heq] at hcc
          exact ⟨hcc.1, hcc.2⟩
      · split
        · split
          · rename_i u g2 heq
            rw [heq] at hcc
            exact ⟨hcc.1, hcc.2⟩
          · rename_i e2 g2 heq
            rw [heq] at hcc
            exact ⟨hcc.1, hcc.2⟩
        · exact ⟨hg1, Nat.le_refl _⟩
  · exact ⟨⟨hw2, hbs, hmod, hnext, hpend⟩, Nat.le_refl _⟩

/-- A committing update_consensus round returns exactly the GVT it stored
and leaves the broadcast log alone. -/
theorem update_consensus_ok_gvt (BS : ℕ) (g : Galaxy) (e : ℕ) (g2 : Galaxy)
    (h : Galaxy.update_consensus BS g = (.ok (some e), g2)) :
    g2.gvt = e ∧ g2.broadcasts = g.broadcasts := by
  unfold Galaxy.update_consensus at h
  split at h
  · simp only at h
    split at h
    · simp at h
    · rename_i st hfold
      split at h
      · split at h
        · rename_i u gc heq
          obtain ⟨h1, h2⟩ := Prod.mk.injEq .. ▸ h
          injection h1 with h1
          injection h1 with h1
          subst h1
          subst h2
          have hok := commit_block_ok _ _ _ _ _ _ _ _ heq
          exact ⟨hok.1, hok.2.2⟩
        · simp at h
      · split at h
        · split at h
          · rename_i u gc heq
            obtain ⟨h1, h2⟩ := Prod.mk.injEq .. ▸ h
            injection h1 with h1
            injection h1 with h1
            subst h1
            subst h2
            have hok := commit_block_ok _ _ _ _ _ _ _ _ heq
            exact ⟨hok.1, hok.2.2⟩
          · simp at h
        · simp at h
  · simp at h

/-- Placing one planet's whole report row preserves the invariant and the
GVT. -/
theorem placeRow_inv (w BS i : ℕ) (row : List Block) :
    ∀ g : Galaxy, GalaxyInv w g →
      (∀ b ∈ row, BlockWF w b ∧ g.gvt < b.start) →
      GalaxyInv w (Galaxy.placeRow BS g i row).2 ∧
      (Galaxy.placeRow BS g i row).2.gvt = g.gvt := by
  induction row with
  | nil =>
    intro g hinv hwf
    exact ⟨hinv, rfl⟩
  | cons b rest ih =>
    intro g hinv hwf
    obtain ⟨hwfb, hgtb⟩ := hwf b (List.mem_cons_self _ _)
    have hpbi := placeBlock_inv w BS g i b hinv hwfb hgtb
    unfold Galaxy.placeRow
    rcases hpb : Galaxy.placeBlock BS g i b with ⟨res, g2⟩
    rw [hpb] at hpbi
    simp only at hpbi
    obtain ⟨hinv2, hgvt2⟩ := hpbi
    rcases res with e | u
    · exact ⟨hinv2, hgvt2⟩
    · have hrest := ih g2 hinv2 (fun b2 hb2 =>
        ⟨(hwf b2 (List.mem_cons_of_mem _ hb2)).1,
         by rw [hgvt2]; exact (hwf b2 (List.mem_cons_of_mem _ hb2)).2⟩)
      exact ⟨hrest.1, hrest.2.trans hgvt2⟩

/-- Placing a whole polled batch preserves the invariant and the GVT. -/
theorem placeAll_inv (w BS : ℕ) (rows : List (List Block)) :
    ∀ (g : Galaxy) (i : ℕ), GalaxyInv w g →
      (∀ row ∈ rows, ∀ b ∈ row, BlockWF w b ∧ g.gvt < b.start) →
      GalaxyInv w (Galaxy.placeAll BS g i rows).2 ∧
      (Galaxy.placeAll BS g i rows).2.gvt = g.gvt := by
  induction rows with
  | nil =>
    intro g i hinv hwf
    exact ⟨hinv, rfl⟩
  | cons row rest ih =>
    intro g i hinv hwf
    have hri := placeRow_inv w BS i row g hinv (hwf row (List.mem_cons_self _ _))
    unfold Galaxy.placeAll
    rcases hpr : Galaxy.placeRow BS g i row with ⟨res, g2⟩
    rw [hpr] at hri
    simp only at hri
    obtain ⟨hinv2, hgvt2⟩ := hri
    rcases res with e | u
    · exact ⟨hinv2, hgvt2⟩
    · have hrest := ih g2 (i + 1) hinv2 (fun r hr b hb =>
        ⟨(hwf r (List.mem_cons_of_mem _ hr) b hb).1,
         by rw [hgvt2]; exact (hwf r (List.mem_cons_of_mem _ hr) b hb).2⟩)
      exact ⟨hrest.1, hrest.2.trans hgvt2⟩

/-- **C4**: GVT monotonicity. Over the embedded coordinator transitions -
placing polled well-formed future block reports (spec-modelled producer
side) and running consensus rounds of the master loop - the invariant
GalaxyInv is preserved and the stored GVT never decreases; a consensus
round that commits broadcasts exactly the new stored GVT, which is at
least the previously published one; hence along any run
(a reflexive-transitive chain of transitions from an invariant state) the
sequence of stored and broadcast GVT values is monotone non-decreasing. -/
theorem gvt_monotone_coordinator (w BS : ℕ) :
    (∀ g g2 : Galaxy, GalaxyInv w g → GalaxyTx w BS g g2 →
      GalaxyInv w g2 ∧ g.gvt ≤ g2.gvt) ∧
    (∀ g g2 : Galaxy, ∀ e : ℕ, GalaxyInv w g →
      Galaxy.masterConsensus BS g = (.ok (some e), g2) →
      g2.broadcasts = g.broadcasts ++ [e] ∧ g2.gvt = e ∧ g.gvt ≤ e) ∧
    (∀ g g2 : Galaxy, GalaxyInv w g →
      Relation.ReflTransGen (GalaxyTx w BS) g g2 →
      GalaxyInv w g2 ∧ g.gvt ≤ g2.gvt) := by
  have hstep : ∀ g g2 : Galaxy, GalaxyInv w g → GalaxyTx w BS g g2 →
      GalaxyInv w g2 ∧ g.gvt ≤ g2.gvt := by
    intro g g2 hinv htx
    cases htx with
    | poll reports hwf =>
      have hall := placeAll_inv w BS reports g 0 hinv hwf
      exact ⟨hall.1, le_of_eq hall.2.symm⟩
    | consensus =>
      have hu := update_consensus_inv w BS g hinv
      unfold Galaxy.masterConsensus
      split
      · rename_i e3 g3 heq
        rw [heq] at hu
        exact hu
      · exact hu
  refine ⟨hstep, ?_, ?_⟩
  · intro g g2 e hinv hmc
    unfold Galaxy.masterConsensus at hmc
    split at hmc
    · rename_i e2 g3 heq
      obtain ⟨h1, h2⟩ := Prod.mk.injEq .. ▸ hmc
      injection h1 with h1
      injection h1 with h1
      subst h2
      obtain ⟨hg3, hbc⟩ := update_consensus_ok_gvt BS g e2 g3 heq
      have hu := update_consensus_inv w BS g hinv
      rw [heq] at hu
      refine ⟨?_, ?_, ?_⟩
      · show g3.broadcasts ++ [e2] = g.broadcasts ++ [e]
        rw [hbc, h1]
      · show g3.gvt = e
        rw [hg3, h1]
      · have hle : g.gvt ≤ g3.gvt := hu.2
        omega
    · rename_i x heq
      exact (heq e g2 hmc).elim
  · intro g g2 hinv hrt
    induction hrt with
    | refl => exact ⟨hinv, Nat.le_refl _⟩
    | tail hab hbc ih =>
      obtain ⟨ih1, ih2⟩ := ih
      obtain ⟨s1, s2⟩ := hstep _ _ ih1 hbc
      exact ⟨s1, ih2.trans s2⟩

/-- Instantiation of the C4 theorem: the aligned one-planet fixture
satisfies the invariant and a consensus transition from it keeps the GVT
non-decreasing. -/
theorem gvt_monotone_coordinator_witness :
    GalaxyInv 16 galaxyFixAligned ∧
    GalaxyTx 16 2 galaxyFixAligned (Galaxy.masterConsensus 2 galaxyFixAligned).2 ∧
    GalaxyInv 16 (Galaxy.masterConsensus 2 galaxyFixAligned).2 ∧
    galaxyFixAligned.gvt ≤ (Galaxy.masterConsensus 2 galaxyFixAligned).2.gvt := by
  have hinv : GalaxyInv 16 galaxyFixAligned := by
    refine ⟨by decide, by decide, by decide, ?_, ?_⟩
    · intro b hb blk hblk
      simp [galaxyFixAligned] at hb
      subst hb
      injection hblk with hblk
      subst hblk
      exact ⟨by decide, by decide⟩
    · intro row hrow j blk hblk
      simp [galaxyFixAligned] at hrow
      subst hrow
      rcases j with _ | _ | j <;> simp [List.getD] at hblk
  have h := (gvt_monotone_coordinator 16 2).1 galaxyFixAligned
    (Galaxy.masterConsensus 2 galaxyFixAligned).2 hinv (GalaxyTx.consensus _)
  exact ⟨hinv, GalaxyTx.consensus _, h.1, h.2⟩

end ClaimC4

end Aika
